import Mathlib

/-!
Verification of the `sphinx_ext_mystmd.builder` module.

The embedding represents Python strings as lists of characters (`Str`),
Python dictionaries backing MyST AST nodes as the inductive type `Node`
(holding exactly the fields the builder reads: `type`, `kind`,
`identifier`, `value`, `url`, `children`), and serialized JSON output as
the inductive type `JSON`.  Filesystem state and the external collaborators
of the module (the Sphinx environment, modification times, the naming
utility) are bundled into a `BuildEnv` record of explicit parameters.
-/

/-- Python strings, embedded as lists of characters. -/
abbrev Str := List Char

/-! ## String splitting primitives

These model the string operations used by `urllib.parse`:
`str.split(sep, 1)`, `str.find`, `str.rfind`, and scanning for the first
of several delimiters. -/

/-- Split at the first occurrence of `c`: returns the part before it and,
when `c` occurs, the part after it.  Models Python `s.split(c, 1)`
together with the `c in s` test. -/
def splitFirst (c : Char) : Str → Str × Option Str
  | [] => ([], none)
  | x :: xs =>
    if x = c then ([], some xs)
    else
      let r := splitFirst c xs
      (x :: r.1, r.2)

/-- Split at the last occurrence of `c` (Python `s.rfind(c)`):
`some (before, after)` when `c` occurs, `none` otherwise. -/
def splitLast (c : Char) (l : Str) : Option (Str × Str) :=
  match splitFirst c l.reverse with
  | (_, none) => none
  | (a, some b) => some (b.reverse, a.reverse)

/-- Take characters until the first one satisfying `p`; returns the
prefix-part and the rest starting at the delimiter. -/
def takeUntilDelim (p : Char → Bool) : Str → Str × Str
  | [] => ([], [])
  | x :: xs =>
    if p x then ([], x :: xs)
    else
      let r := takeUntilDelim p xs
      (x :: r.1, r.2)

/-! ## A model of `urllib.parse.urlparse` / `urlunparse`

Modelled from the spec: the URL-component abstraction of §4.3/§6 is
realized in the source by the external standard library `urllib.parse`
(CPython 3.11), whose splitting algorithm is transcribed here:
sanitize (strip leading C0-control/space characters, remove tab, CR, LF),
then split off scheme, netloc, fragment, query, and path parameters, in
that order.  The model omits the stdlib validation that only ever raises
`ValueError` (IPv6 bracket and netloc checks) and never alters components. -/

/-- The WHATWG C0-control-or-space class stripped from the front of a URL. -/
def c0OrSpace (c : Char) : Bool := c.val ≤ 32

/-- The bytes removed everywhere in a URL before parsing: tab, CR, LF. -/
def removedByte (c : Char) : Bool := c = '\t' || c = '\r' || c = '\n'

/-- Strip leading C0-control/space characters (Python `str.lstrip`). -/
def lstripC0 : Str → Str
  | [] => []
  | c :: cs => if c0OrSpace c then lstripC0 cs else c :: cs

/-- Remove every tab, CR and LF character (the stdlib `replace` loop). -/
def removeTabsCrLf (l : Str) : Str := l.filter (fun c => !removedByte c)

/-- Characters allowed in a URL scheme: ASCII letters, digits, `+`, `-`, `.`. -/
def schemeChar (c : Char) : Bool :=
  c.isAlpha || c.isDigit || c = '+' || c = '-' || c = '.'

/-- Scheme detection of `urlsplit`: when a `:` occurs at position `> 0`,
the first character is an ASCII letter and everything before the `:` is a
scheme character, the lowercased scheme and the remainder are returned;
otherwise the scheme is empty and the input is left whole. -/
def schemeSplit (u : Str) : Str × Str :=
  match splitFirst ':' u with
  | (bef, some aft) =>
    match bef with
    | [] => ([], u)
    | b0 :: _ =>
      if b0.isAlpha && bef.all schemeChar then (bef.map Char.toLower, aft) else ([], u)
  | (_, none) => ([], u)

/-- Delimiters ending the netloc component. -/
def netlocDelim (c : Char) : Bool := c = '/' || c = '?' || c = '#'

/-- Netloc detection of `urlsplit` (`_splitnetloc`): when the input starts
with `//`, the netloc extends to the first `/`, `?` or `#`. -/
def netlocSplit (u : Str) : Str × Str :=
  match u with
  | '/' :: '/' :: rest => takeUntilDelim netlocDelim rest
  | _ => ([], u)

/-- Fragment split: everything after the first `#`, if any. -/
def fragSplit (u : Str) : Str × Str :=
  match splitFirst '#' u with
  | (a, some b) => (a, b)
  | (a, none) => (a, [])

/-- Query split: everything after the first `?`, if any. -/
def querySplit (u : Str) : Str × Str :=
  match splitFirst '?' u with
  | (a, some b) => (a, b)
  | (a, none) => (a, [])

/-- Path-parameter split (`_splitparams`): parameters start at the first
`;` of the last path segment. -/
def splitParams (l : Str) : Str × Str :=
  match splitLast '/' l with
  | some (pre, seg) =>
    match splitFirst ';' seg with
    | (s1, some s2) => (pre ++ '/' :: s1, s2)
    | (_, none) => (l, [])
  | none =>
    match splitFirst ';' l with
    | (s1, some s2) => (s1, s2)
    | (_, none) => (l, [])

/-- The six URL components produced by `urllib.parse.urlparse`. -/
structure ParsedUri where
  scheme : Str
  netloc : Str
  path : Str
  params : Str
  query : Str
  fragment : Str
deriving DecidableEq, Repr

/-- `urllib.parse.urlparse`: sanitize, then split off scheme, netloc,
fragment, query and path parameters in the stdlib order. -/
def urlparse (u0 : Str) : ParsedUri :=
  let u := removeTabsCrLf (lstripC0 u0)
  let s := schemeSplit u
  let n := netlocSplit s.2
  let f := fragSplit n.2
  let q := querySplit f.1
  let pp := splitParams q.1
  ⟨s.1, n.1, pp.1, pp.2, q.2, f.2⟩

/-- The schemes the stdlib serializer treats as using a netloc. -/
def usesNetlocSchemes : List Str :=
  [[], ("ftp".data), ("http".data), ("gopher".data), ("nntp".data),
   ("telnet".data), ("imap".data), ("wais".data), ("file".data),
   ("mms".data), ("https".data), ("shttp".data), ("snews".data),
   ("prospero".data), ("rtsp".data), ("rtsps".data), ("rtspu".data),
   ("rsync".data), ("svn".data), ("svn+ssh".data), ("sftp".data),
   ("nfs".data), ("git".data), ("git+ssh".data), ("ws".data), ("wss".data)]

/-- `urllib.parse.urlunsplit` on character lists. -/
def urlunsplit (scheme netloc u query fragment : Str) : Str :=
  let u1 :=
    if netloc ≠ [] ∨ (scheme ≠ [] ∧ scheme ∈ usesNetlocSchemes ∧ u.take 2 ≠ ['/', '/']) then
      ('/' :: '/' :: netloc) ++ (if u ≠ [] ∧ u.head? ≠ some '/' then '/' :: u else u)
    else u
  let u2 := if scheme ≠ [] then scheme ++ ':' :: u1 else u1
  let u3 := if query ≠ [] then u2 ++ '?' :: query else u2
  if fragment ≠ [] then u3 ++ '#' :: fragment else u3

/-- `urllib.parse.urlunparse`: reattach path parameters, then unsplit. -/
def urlunparse (p : ParsedUri) : Str :=
  let u := if p.params ≠ [] then p.path ++ ';' :: p.params else p.path
  urlunsplit p.scheme p.netloc u p.query p.fragment

/-! ## The internal-link rewrite (`MySTBuilderMixin.transform_internal_links`) -/

/-- The fixed suffix appended to the path of rewritten internal links. -/
def jsonSuffix : Str := (".myst.json".data)

/-- The loop body of `transform_internal_links` acting on one link URL:
parse the URL; skip it when it has a scheme, an empty path, or a path
that is not a known document id; otherwise append `.myst.json` to the
path and re-serialize.  `docnames` stands for `set(self.env.found_docs)`. -/
def transformUrl (docnames : List Str) (u : Str) : Str :=
  let p := urlparse u
  if p.scheme ≠ [] ∨ p.path = [] then u
  else if p.path ∉ docnames then u
  else urlunparse { p with path := p.path ++ jsonSuffix }

/-- A nonempty string that would be accepted as a scheme name: first
character an ASCII letter, every character a scheme character. -/
def validSchemeName (a : Str) : Bool :=
  match a with
  | [] => false
  | c :: _ => c.isAlpha && a.all schemeChar

/-- No decomposition of `l` around its first `:` forms a valid scheme
name, so scheme detection leaves `l` whole. -/
def noSchemeIntro (l : Str) : Prop :=
  ∀ a b : Str, l = a ++ ':' :: b → ':' ∉ a → validSchemeName a = false

/-- The last slash-separated segment of `l` carries no `;`, so `l`
survives the path-parameter split unchanged. -/
def lastSegHasNoSemi (l : Str) : Prop :=
  match splitLast '/' l with
  | some r => ';' ∉ r.2
  | none => ';' ∉ l

/-- The invariants every scheme-less `urlparse` result satisfies; they
drive the re-parse analysis of rewritten URLs. -/
structure ParseInv (p : ParsedUri) : Prop where
  netloc_clean : ∀ x ∈ p.netloc, netlocDelim x = false
  path_clean : '?' ∉ p.path ∧ '#' ∉ p.path
  params_clean : '/' ∉ p.params ∧ '?' ∉ p.params ∧ '#' ∉ p.params
  query_clean : '#' ∉ p.query
  path_semi : lastSegHasNoSemi p.path
  path_slash : p.netloc ≠ [] → p.path ≠ [] → p.path.head? = some '/'
  path_scheme : noSchemeIntro p.path
  no_removed : ∀ x : Char,
    (x ∈ p.netloc ∨ x ∈ p.path ∨ x ∈ p.params ∨ x ∈ p.query ∨ x ∈ p.fragment) →
      removedByte x = false
  head_ok : p.netloc = [] → ∀ h : Char, p.path.head? = some h → c0OrSpace h = false

/-! ## AST nodes and the tree utilities -/

mutual
/-- A MyST AST node, modelling the dictionary fields that `builder.py`
reads: `node["type"]`, the optional `node["kind"]`, `node["identifier"]`
and `node["value"]` entries, the `node["url"]` entry of link nodes, and
the ordered `children`.  `NodeList` is the children sequence (a mutual
inductive so that all tree recursions are structural). -/
inductive Node : Type where
  | mk (type : Str) (kind : Option Str) (identifier : Option Str)
      (value : Option Str) (url : Str) (children : NodeList) : Node
deriving DecidableEq
inductive NodeList : Type where
  | nil : NodeList
  | cons (head : Node) (tail : NodeList) : NodeList
deriving DecidableEq
end

def NodeList.toList : NodeList → List Node
  | .nil => []
  | .cons c cs => c :: cs.toList

def Node.type : Node → Str
  | .mk t _ _ _ _ _ => t

def Node.kind : Node → Option Str
  | .mk _ k _ _ _ _ => k

def Node.identifier : Node → Option Str
  | .mk _ _ i _ _ _ => i

def Node.value : Node → Option Str
  | .mk _ _ _ v _ _ => v

def Node.url : Node → Str
  | .mk _ _ _ _ u _ => u

def Node.children : Node → List Node
  | .mk _ _ _ _ _ cs => cs.toList

mutual
/-- The number of nodes of a tree. -/
def Node.size : Node → Nat
  | .mk _ _ _ _ _ cs => 1 + cs.size
/-- The total number of nodes of a children sequence. -/
def NodeList.size : NodeList → Nat
  | .nil => 0
  | .cons c cs => c.size + cs.size
end

/-- Breadth-first traversal of a queue of nodes, structurally recursive
on a fuel bound: each step emits the head of the queue and enqueues its
children. -/
def bfWalkFuel : Nat → List Node → List Node
  | 0, _ => []
  | _ + 1, [] => []
  | fuel + 1, x :: q => x :: bfWalkFuel fuel (q ++ x.children)

/-- Modelled from the spec: the Tree Walker of §4.2 (`utils.breadth_first_walk`,
whose source file is not provided) yields every node reachable from the
root in breadth-first order — root first, then its children in document
order, then grandchildren, and so on.  The fuel `n.size` is exactly the
number of nodes, so it never runs out. -/
def breadth_first_walk (n : Node) : List Node := bfWalkFuel (n.size) [n]

/-- Modelled from the spec: `utils.find_by_type` (source file not
provided) yields the walked nodes whose `type` equals `t`. -/
def find_by_type (t : Str) (n : Node) : List Node :=
  (breadth_first_walk n).filter (fun m => m.type == t)

mutual
/-- Modelled from the spec: `utils.to_text` (source file not provided)
flattens the textual content of a node — a node with a `value` field
contributes that value, any other node the concatenated text of its
children. -/
def to_text : Node → Str
  | .mk _ _ _ (some v) _ _ => v
  | .mk _ _ _ none _ cs => toTextList cs
def toTextList : NodeList → Str
  | .nil => []
  | .cons c cs => to_text c ++ toTextList cs
end

mutual
/-- `transform_internal_links`, functionally: every node of type `link`
has its `url` entry replaced by the rewritten URL; all other fields and
the tree shape are untouched. -/
def transform_internal_links (docnames : List Str) : Node → Node
  | .mk t k i v u cs =>
    .mk t k i v (if t == ("link".data) then transformUrl docnames u else u)
      (transformLinksList docnames cs)
def transformLinksList (docnames : List Str) : NodeList → NodeList
  | .nil => .nil
  | .cons c cs => .cons (transform_internal_links docnames c) (transformLinksList docnames cs)
end

/-! ## Serialized JSON -/

/-- The JSON values the builder serializes.  Object fields are ordered,
matching Python dictionary insertion order under `json.dump`. -/
inductive JSON : Type where
  | str (s : Str) : JSON
  | bool (b : Bool) : JSON
  | null : JSON
  | arr (items : List JSON) : JSON
  | obj (fields : List (Str × JSON)) : JSON

/-- The keys of a JSON object, in order. -/
def objKeys : JSON → List Str
  | .obj fields => fields.map Prod.fst
  | _ => []

/-- Look a key up in a JSON object. -/
def objGet (key : Str) : JSON → Option JSON
  | .obj fields => (fields.find? (fun f => f.1 == key)).map Prod.snd
  | _ => none

mutual
/-- A straightforward JSON encoding of an AST node (the `mdast` entry of
the artifacts; no claim constrains its exact shape). -/
def nodeToJSON : Node → JSON
  | .mk t k i v u cs =>
    JSON.obj
      [(("type".data), JSON.str t),
       (("kind".data), match k with | some x => JSON.str x | none => JSON.null),
       (("identifier".data), match i with | some x => JSON.str x | none => JSON.null),
       (("value".data), match v with | some x => JSON.str x | none => JSON.null),
       (("url".data), JSON.str u),
       (("children".data), JSON.arr (nodeListToJSON cs))]
def nodeListToJSON : NodeList → List JSON
  | .nil => []
  | .cons c cs => nodeToJSON c :: nodeListToJSON cs
end

/-! ## The build environment -/

/-- The state the two builders read from their surroundings: the Sphinx
environment (`found_docs`, `all_docs`, `doc2path`), the filesystem
(`mtime` models `os.path.getmtime`, returning `none` when the stat
raises; `artifactMdast` models reading the `mdast` entry of a
previously written artifact; `sourceBytes` models reading a source
file), the configured output directory, and two external pure functions:
`title_to_name` (modelled from the spec: the slugification utility of
`utils`, whose source file is not provided) and `sha256hex` (the
`hashlib` digest). -/
structure BuildEnv where
  found_docs : List Str
  all_docs : List Str
  doc2path : Str → Str
  mtime : Str → Option Int
  outdir : Str
  title_to_name : Str → Str
  sha256hex : Str → Str
  artifactMdast : Str → Node
  sourceBytes : Str → Str

/-- `os.path.basename` for POSIX paths: the part after the last slash. -/
def basename (p : Str) : Str :=
  match splitLast '/' p with
  | some r => r.2
  | none => p

/-- `_slugify`, identical in `MySTBuilder` and `MySTXRefBuilder`:
apply the naming utility to the basename of the document id. -/
def slugify (e : BuildEnv) (path : Str) : Str := e.title_to_name (basename path)

/-- `MySTBuilder._get_output_path`: `<outdir>/<slug>.myst.json`. -/
def mystOutputPath (e : BuildEnv) (doc : Str) : Str :=
  e.outdir ++ '/' :: (slugify e doc ++ jsonSuffix)

/-- `MySTXRefBuilder._get_target_path`: `<outdir>/content/<slug>.json`. -/
def xrefTargetPath (e : BuildEnv) (doc : Str) : Str :=
  e.outdir ++ '/' :: ("content".data) ++ '/' :: (slugify e doc ++ (".json".data))

/-- `MySTBuilder.get_outdated_docs`: a found document never built is
stale; otherwise the output mtime (0 when unreadable) is compared with
the source mtime, and a document whose source stat raises is skipped. -/
def mystGetOutdatedDocs (e : BuildEnv) : List Str :=
  e.found_docs.flatMap (fun docname =>
    if docname ∉ e.all_docs then [docname]
    else
      let targetmtime : Int := (e.mtime (mystOutputPath e docname)).getD 0
      match e.mtime (e.doc2path docname) with
      | some srcmtime => if srcmtime > targetmtime then [docname] else []
      | none => [])

/-- `MySTXRefBuilder.get_outdated_docs`: same staleness rule against the
cross-reference target path. -/
def xrefGetOutdatedDocs (e : BuildEnv) : List Str :=
  e.found_docs.flatMap (fun docname =>
    if docname ∉ e.all_docs then [docname]
    else
      let targetmtime : Int := (e.mtime (xrefTargetPath e docname)).getD 0
      match e.mtime (e.doc2path docname) with
      | some srcmtime => if srcmtime > targetmtime then [docname] else []
      | none => [])

/-- `MySTXRefBuilder._xref_kind_for_node`. -/
def xrefKindForNode (n : Node) : Str :=
  if n.type == ("container".data) then n.kind.getD ("figure".data)
  else
    match n.kind with
    | some k => n.type ++ ':' :: k
    | none => n.type

/-- `MySTXRefBuilder._get_written_target_references`: re-read a
document's artifact and yield one reference entry per walked node
carrying an `identifier`. -/
def xrefWrittenTargetRefs (e : BuildEnv) (doc : Str) : List JSON :=
  let path := xrefTargetPath e doc
  let slug := slugify e doc
  let mdast := e.artifactMdast path
  (breadth_first_walk mdast).filterMap (fun node =>
    match node.identifier with
    | some ident =>
      some (JSON.obj
        [(("identifier".data), JSON.str ident),
         (("kind".data), JSON.str ( xrefKindForNode node)),
         (("data".data), JSON.str path),
         (("url".data), JSON.str ('/' :: slug))])
    | none => none)

/-- `MySTXRefBuilder.AST_VERSION`. -/
def AST_VERSION : Str := ("1".data)

/-- `MySTXRefBuilder.MYST_VERSION`. -/
def MYST_VERSION : Str := ("1.36.0".data)

/-- `MySTXRefBuilder.write_doc`, as the JSON artifact it serializes for
one document from the transformed AST. -/
def xrefWriteDoc (e : BuildEnv) (doc_name : Str) (mdastIn : Node) : JSON :=
  let mdast := transform_internal_links e.found_docs mdastIn
  let slug := slugify e doc_name
  let contents := e.sourceBytes (e.doc2path doc_name)
  let sha := e.sha256hex contents
  let title : Option Str := ((find_by_type ("heading".data) mdast).head?).map to_text
  JSON.obj
    [(("kind".data), JSON.str ("Article".data)),
     (("sha256".data), JSON.str sha),
     (("slug".data), JSON.str slug),
     (("location".data), JSON.str ('/' :: doc_name)),
     (("dependencies".data), JSON.arr []),
     (("frontmatter".data), JSON.obj
       [(("title".data), match title with | some t => JSON.str t | none => JSON.null),
        (("content_includes_title".data), JSON.bool title.isSome)]),
     (("mdast".data), nodeToJSON mdast),
     (("references".data), JSON.obj
       [(("cite".data), JSON.obj
         [(("order".data), JSON.arr []), (("data".data), JSON.obj [])])])]

/-- `MySTXRefBuilder.finish`: one page-level entry per found document,
then every document's node-level entries, wrapped in the manifest object. -/
def xrefFinish (e : BuildEnv) : JSON :=
  let page_references := e.found_docs.map (fun n =>
    JSON.obj
      [(("kind".data), JSON.str ("page".data)),
       (("url".data), JSON.str ('/' :: slugify e n)),
       (("data".data), JSON.str (xrefTargetPath e n))])
  let target_references := (e.found_docs.map (fun n => xrefWrittenTargetRefs e n)).flatten
  JSON.obj
    [(("version".data), JSON.str AST_VERSION),
     (("myst".data), JSON.str MYST_VERSION),
     (("references".data), JSON.arr (page_references ++ target_references))]

/-! ## Concrete sample data used by witnesses and counterexamples -/

/-- A small concrete build environment. -/
def sampleEnv : BuildEnv where
  found_docs := [("intro".data), ("guide".data)]
  all_docs := [("intro".data)]
  doc2path := fun d => ("src/".data) ++ d
  mtime := fun _ => none
  outdir := ("out".data)
  title_to_name := fun s => s
  sha256hex := fun s => s
  artifactMdast := fun _ => Node.mk ("root".data) none none none [] .nil
  sourceBytes := fun s => s

/-- A container node of kind `table`. -/
def kindNodeA : Node := .mk ("container".data) (some ("table".data)) none none [] .nil

/-- A container node without a kind. -/
def kindNodeB : Node := .mk ("container".data) none none none [] .nil

/-- A math node of kind `inline`. -/
def kindNodeC : Node := .mk ("math".data) (some ("inline".data)) none none [] .nil

/-- A paragraph node without a kind. -/
def kindNodeD : Node := .mk ("paragraph".data) none none none [] .nil

/-- An environment whose artifacts hold one identifier-bearing node. -/
def envIdent : BuildEnv :=
  { sampleEnv with
    artifactMdast := fun _ => Node.mk ("heading".data) none (some ("h1".data)) none [] .nil }

/-- The reference entry `envIdent` produces for document `guide`. -/
def identRefEntry : JSON :=
  JSON.obj
    [(("identifier".data), JSON.str ("h1".data)),
     (("kind".data), JSON.str ("heading".data)),
     (("data".data), JSON.str ("out/content/guide.json".data)),
     (("url".data), JSON.str ("/guide".data))]

/-- A heading node with the flattened text `Intro`. -/
def introHeading : Node :=
  .mk ("heading".data) none none none []
    (.cons (.mk ("text".data) none none (some ("Intro".data)) [] .nil) .nil)

/-- A document AST containing `introHeading`. -/
def introDoc : Node := .mk ("root".data) none none none [] (.cons introHeading .nil)

/-- A document AST with no heading node. -/
def plainDoc : Node := .mk ("root".data) none none none [] .nil

/-- A document set for which the link rewrite is not idempotent: it
contains both a name and that name with the rewrite suffix appended. -/
def clashingDocnames : List Str := [("a".data), ("a.myst.json".data)]

/-- A document AST holding one link to `a`. -/
def linkDoc : Node := .mk ("link".data) none none none ("a".data) .nil

/-! ## General lemmas about the staleness detectors -/

theorem mem_outdatedFlatMap (found all : List Str) (src tgt : Str → Option Int) (d : Str) :
    d ∈ found.flatMap (fun docname =>
        if docname ∉ all then [docname]
        else
          match src docname with
          | some srcmtime => if srcmtime > (tgt docname).getD 0 then [docname] else []
          | none => []) ↔
      d ∈ found ∧ (d ∉ all ∨ ∃ s : Int, src d = some s ∧ (tgt d).getD 0 < s) := by
  rw [List.mem_flatMap]
  constructor
  · rintro ⟨a, ha, hd⟩
    by_cases hall : a ∉ all
    · rw [if_pos hall] at hd
      rcases List.mem_singleton.mp hd with rfl
      exact ⟨ha, Or.inl hall⟩
    · rw [if_neg hall] at hd
      rcases hm : src a with _ | s
      · simp only [hm] at hd
        cases hd
      · simp only [hm] at hd
        by_cases hlt : s > (tgt a).getD 0
        · rw [if_pos hlt] at hd
          rcases List.mem_singleton.mp hd with rfl
          exact ⟨ha, Or.inr ⟨s, hm, hlt⟩⟩
        · rw [if_neg hlt] at hd
          cases hd
  · rintro ⟨ha, hcond⟩
    refine ⟨d, ha, ?_⟩
    by_cases hall : d ∉ all
    · rw [if_pos hall]
      exact List.mem_singleton.mpr rfl
    · rw [if_neg hall]
      rcases hcond with h | ⟨s, hm, hlt⟩
      · exact absurd h hall
      · rw [hm]
        show d ∈ (if s > (tgt d).getD 0 then [d] else [])
        rw [if_pos hlt]
        exact List.mem_singleton.mpr rfl

theorem mem_mystGetOutdatedDocs (e : BuildEnv) (d : Str) :
    d ∈ mystGetOutdatedDocs e ↔
      d ∈ e.found_docs ∧
        (d ∉ e.all_docs ∨
          ∃ s : Int, e.mtime (e.doc2path d) = some s ∧
            (e.mtime (mystOutputPath e d)).getD 0 < s) :=
  mem_outdatedFlatMap e.found_docs e.all_docs
    (fun x => e.mtime (e.doc2path x)) (fun x => e.mtime (mystOutputPath e x)) d

theorem mem_xrefGetOutdatedDocs (e : BuildEnv) (d : Str) :
    d ∈ xrefGetOutdatedDocs e ↔
      d ∈ e.found_docs ∧
        (d ∉ e.all_docs ∨
          ∃ s : Int, e.mtime (e.doc2path d) = some s ∧
            (e.mtime (xrefTargetPath e d)).getD 0 < s) :=
  mem_outdatedFlatMap e.found_docs e.all_docs
    (fun x => e.mtime (e.doc2path x)) (fun x => e.mtime (xrefTargetPath e x)) d

/-- C1: for every document id known to the corpus (a member of
`found_docs`), both staleness detectors include a never-built document
(one outside `all_docs`); a previously built document whose source can
be statted is included iff its source modification time is strictly
greater than the output modification time, the latter taken as 0 when
the output stat fails — in particular equal times mean not stale. -/
theorem claim1_staleness (e : BuildEnv) (d : Str) (hd : d ∈ e.found_docs) :
    (d ∉ e.all_docs → d ∈ mystGetOutdatedDocs e ∧ d ∈ xrefGetOutdatedDocs e) ∧
    (d ∈ e.all_docs →
      ∀ s : Int, e.mtime (e.doc2path d) = some s →
        ((d ∈ mystGetOutdatedDocs e ↔ (e.mtime (mystOutputPath e d)).getD 0 < s) ∧
         (d ∈ xrefGetOutdatedDocs e ↔ (e.mtime (xrefTargetPath e d)).getD 0 < s))) := by
  constructor
  · intro hnew
    exact ⟨(mem_mystGetOutdatedDocs e d).mpr ⟨hd, Or.inl hnew⟩,
           (mem_xrefGetOutdatedDocs e d).mpr ⟨hd, Or.inl hnew⟩⟩
  · intro hbuilt s hs
    constructor
    · rw [mem_mystGetOutdatedDocs]
      constructor
      · rintro ⟨-, h | ⟨s2, hs2, hlt⟩⟩
        · exact absurd hbuilt h
        · rw [hs] at hs2
          cases hs2
          exact hlt
      · intro hlt
        exact ⟨hd, Or.inr ⟨s, hs, hlt⟩⟩
    · rw [mem_xrefGetOutdatedDocs]
      constructor
      · rintro ⟨-, h | ⟨s2, hs2, hlt⟩⟩
        · exact absurd hbuilt h
        · rw [hs] at hs2
          cases hs2
          exact hlt
      · intro hlt
        exact ⟨hd, Or.inr ⟨s, hs, hlt⟩⟩

/-- Witness for C1 at a concrete environment: `guide` was never built, so
it is stale for both builders. -/
theorem claim1_staleness_witness :
    ("guide".data) ∈ mystGetOutdatedDocs sampleEnv ∧
      ("guide".data) ∈ xrefGetOutdatedDocs sampleEnv :=
  (claim1_staleness sampleEnv ("guide".data) (by decide)).1 (by decide)

/-- C8: a previously built document (a member of `all_docs`) whose source
stat fails (`mtime` of its source path is `none`) is yielded by neither
staleness detector — the failure is swallowed and the document excluded. -/
theorem claim8_missing_source (e : BuildEnv) (d : Str)
    (hbuilt : d ∈ e.all_docs) (hgone : e.mtime (e.doc2path d) = none) :
    d ∉ mystGetOutdatedDocs e ∧ d ∉ xrefGetOutdatedDocs e := by
  constructor
  · intro hmem
    rcases (mem_mystGetOutdatedDocs e d).mp hmem with ⟨-, h | ⟨s, hs, -⟩⟩
    · exact h hbuilt
    · rw [hgone] at hs
      cases hs
  · intro hmem
    rcases (mem_xrefGetOutdatedDocs e d).mp hmem with ⟨-, h | ⟨s, hs, -⟩⟩
    · exact h hbuilt
    · rw [hgone] at hs
      cases hs

/-- Witness for C8 at a concrete environment: `intro` was built and its
source stat fails, so it is excluded by both detectors. -/
theorem claim8_missing_source_witness :
    ("intro".data) ∉ mystGetOutdatedDocs sampleEnv ∧
      ("intro".data) ∉ xrefGetOutdatedDocs sampleEnv :=
  claim8_missing_source sampleEnv ("intro".data) (by decide) rfl

/-- C2: `_xref_kind_for_node` returns the node's kind for containers with
a kind, the literal `figure` for containers without one, the colon-joined
`type:kind` for non-containers with a kind, and the bare type otherwise. -/
theorem claim2_kind_classification (n : Node) :
    (n.type = ("container".data) → ∀ k, n.kind = some k → xrefKindForNode n = k) ∧
    (n.type = ("container".data) → n.kind = none → xrefKindForNode n = ("figure".data)) ∧
    (n.type ≠ ("container".data) → ∀ k, n.kind = some k →
      xrefKindForNode n = n.type ++ ':' :: k) ∧
    (n.type ≠ ("container".data) → n.kind = none → xrefKindForNode n = n.type) := by
  refine ⟨?_, ?_, ?_, ?_⟩
  · intro ht k hk
    unfold xrefKindForNode
    rw [if_pos (by exact beq_iff_eq.mpr ht), hk]
    rfl
  · intro ht hk
    unfold xrefKindForNode
    rw [if_pos (by exact beq_iff_eq.mpr ht), hk]
    rfl
  · intro ht k hk
    unfold xrefKindForNode
    rw [if_neg (by simp [ht]), hk]
  · intro ht hk
    unfold xrefKindForNode
    rw [if_neg (by simp [ht]), hk]

/-- Witness for C2 at the four concrete nodes of the claim: container and
kind `table` gives `table`, container without kind gives `figure`, `math`
with kind `inline` gives `math:inline`, bare `paragraph` gives
`paragraph`. -/
theorem claim2_kind_classification_witness :
    xrefKindForNode kindNodeA = ("table".data) ∧
    xrefKindForNode kindNodeB = ("figure".data) ∧
    xrefKindForNode kindNodeC = ("math:inline".data) ∧
    xrefKindForNode kindNodeD = ("paragraph".data) :=
  ⟨(claim2_kind_classification kindNodeA).1 rfl _ rfl,
   (claim2_kind_classification kindNodeB).2.1 rfl rfl,
   (claim2_kind_classification kindNodeC).2.2.1 (by decide) _ rfl,
   (claim2_kind_classification kindNodeD).2.2.2 (by decide) rfl⟩

/-- C9: both builders derive slugs and output paths from the basename of
the document id alone, so two ids with equal basenames share a slug and
share both output paths (their artifacts overwrite each other). -/
theorem claim9_basename_collision (e : BuildEnv) (a b : Str)
    (hab : basename a = basename b) :
    slugify e a = slugify e b ∧
      mystOutputPath e a = mystOutputPath e b ∧
      xrefTargetPath e a = xrefTargetPath e b := by
  have h : slugify e a = slugify e b := by
    unfold slugify
    rw [hab]
  refine ⟨h, ?_, ?_⟩
  · unfold mystOutputPath
    rw [h]
  · unfold xrefTargetPath
    rw [h]

/-- Witness for C9: the distinct ids `a/index` and `b/index` share their
basename, hence their slug and both output paths. -/
theorem claim9_basename_collision_witness :
    basename ("a/index".data) = basename ("b/index".data) ∧
      slugify sampleEnv ("a/index".data) = slugify sampleEnv ("b/index".data) ∧
      mystOutputPath sampleEnv ("a/index".data) = mystOutputPath sampleEnv ("b/index".data) ∧
      xrefTargetPath sampleEnv ("a/index".data) = xrefTargetPath sampleEnv ("b/index".data) :=
  ⟨by decide,
   claim9_basename_collision sampleEnv ("a/index".data) ("b/index".data) (by decide)⟩

/-- C5 (counterexample): the manifest written by `finish` does not carry
the key set `version`, `toolVersion`, `references` — at a concrete
environment its keys are `version`, `myst`, `references`. -/
theorem claim5_counterexample :
    objKeys (xrefFinish sampleEnv) ≠
      [("version".data), ("toolVersion".data), ("references".data)] := by
  decide

/-- C5 (amended): the manifest written by `finish` is a JSON object with
exactly the keys `version` (the AST schema version string), `myst` (the
downstream tool version string), and `references`, in that order. -/
theorem claim5_manifest_keys (e : BuildEnv) :
    objKeys (xrefFinish e) = [("version".data), ("myst".data), ("references".data)] ∧
      objGet ("version".data) (xrefFinish e) = some (JSON.str AST_VERSION) ∧
      objGet ("myst".data) (xrefFinish e) = some (JSON.str MYST_VERSION) :=
  ⟨rfl, rfl, rfl⟩

theorem length_filterMap_eq_length_filter {α β : Type} (f : α → Option β) (l : List α) :
    (l.filterMap f).length = (l.filter (fun a => (f a).isSome)).length := by
  induction l with
  | nil => rfl
  | cons a as ih =>
    rcases hf : f a with _ | b
    · simp [List.filterMap_cons, List.filter_cons, hf, ih]
    · simp [List.filterMap_cons, List.filter_cons, hf, ih]

/-- C3: the references list of the manifest written by `finish` is one
page-level entry per found document, in input order, followed by the
node-level entries of every document in input order, each document
contributing one entry per identifier-bearing node of its re-read
artifact in the breadth-first walk order. -/
theorem claim3_manifest_structure (e : BuildEnv) :
    objGet ("references".data) (xrefFinish e) =
      some (JSON.arr
        ((e.found_docs.map (fun n =>
            JSON.obj
              [(("kind".data), JSON.str ("page".data)),
               (("url".data), JSON.str ('/' :: slugify e n)),
               (("data".data), JSON.str (xrefTargetPath e n))]))
          ++ e.found_docs.flatMap (fun d => xrefWrittenTargetRefs e d))) ∧
    (∀ d, xrefWrittenTargetRefs e d =
        (breadth_first_walk (e.artifactMdast (xrefTargetPath e d))).filterMap
          (fun node =>
            node.identifier.map (fun ident =>
              JSON.obj
                [(("identifier".data), JSON.str ident),
                 (("kind".data), JSON.str ( xrefKindForNode node)),
                 (("data".data), JSON.str (xrefTargetPath e d)),
                 (("url".data), JSON.str ('/' :: slugify e d))]))) ∧
    (∀ d, (xrefWrittenTargetRefs e d).length =
        ((breadth_first_walk (e.artifactMdast (xrefTargetPath e d))).filter
          (fun node => node.identifier.isSome)).length) := by
  refine ⟨?_, ?_, ?_⟩
  · rw [List.flatMap_def]
    rfl
  · intro d
    show (breadth_first_walk _).filterMap _ = (breadth_first_walk _).filterMap _
    congr 1
    funext node
    cases node.identifier <;> rfl
  · intro d
    show ((breadth_first_walk _).filterMap _).length = _
    rw [length_filterMap_eq_length_filter]
    refine congrArg _ (List.filter_congr ?_)
    intro x _
    rcases hx : x.identifier with _ | i <;> simp [hx]

/-- C10: every node-level reference entry emitted for a document by
`_get_written_target_references` has `url` equal to `/` followed by the
document's slug and `data` equal to the document's artifact path, with
nothing node-specific appended. -/
theorem claim10_node_ref_fields (e : BuildEnv) (d : Str) (r : JSON)
    (hr : r ∈ xrefWrittenTargetRefs e d) :
    objGet ("url".data) r = some (JSON.str ('/' :: slugify e d)) ∧
    objGet ("data".data) r = some (JSON.str (xrefTargetPath e d)) := by
  obtain ⟨node, hmem, hf⟩ := List.mem_filterMap.mp hr
  rcases hid : node.identifier with _ | ident
  · simp [hid] at hf
  · simp only [hid] at hf
    cases hf
    exact ⟨rfl, rfl⟩

/-- Witness for C10 at a concrete environment holding one
identifier-bearing node. -/
theorem claim10_node_ref_fields_witness :
    objGet ("url".data) identRefEntry =
      some (JSON.str ('/' :: slugify envIdent ("guide".data))) ∧
    objGet ("data".data) identRefEntry =
      some (JSON.str (xrefTargetPath envIdent ("guide".data))) := by
  have h : xrefWrittenTargetRefs envIdent ("guide".data) = [identRefEntry] := rfl
  exact claim10_node_ref_fields envIdent ("guide".data) identRefEntry
    (h ▸ List.Mem.head [])

/-! ## The link rewrite only touches `url` entries: structural lemmas -/

theorem transform_type_eq (dn : List Str) (n : Node) :
    (transform_internal_links dn n).type = n.type := by
  cases n
  rfl

theorem transform_kind_eq (dn : List Str) (n : Node) :
    (transform_internal_links dn n).kind = n.kind := by
  cases n
  rfl

theorem transform_identifier_eq (dn : List Str) (n : Node) :
    (transform_internal_links dn n).identifier = n.identifier := by
  cases n
  rfl

theorem transform_value_eq (dn : List Str) (n : Node) :
    (transform_internal_links dn n).value = n.value := by
  cases n
  rfl

theorem transformList_toList (dn : List Str) :
    (l : NodeList) → (transformLinksList dn l).toList =
      List.map (transform_internal_links dn) l.toList
  | .nil => rfl
  | .cons c cs => by
    simp only [transformLinksList, NodeList.toList, List.map_cons]
    exact congrArg _ (transformList_toList dn cs)

theorem transform_children_eq (dn : List Str) (n : Node) :
    (transform_internal_links dn n).children =
      n.children.map (transform_internal_links dn) := by
  cases n with
  | mk t k i v u cs =>
    show (transformLinksList dn cs).toList = _
    exact transformList_toList dn cs

mutual
theorem transform_size_eq (dn : List Str) :
    (n : Node) → (transform_internal_links dn n).size = n.size
  | .mk t k i v u cs => by
    show 1 + (transformLinksList dn cs).size = 1 + cs.size
    rw [transformList_size_eq dn cs]
theorem transformList_size_eq (dn : List Str) :
    (l : NodeList) → (transformLinksList dn l).size = l.size
  | .nil => rfl
  | .cons c cs => by
    show (transform_internal_links dn c).size + (transformLinksList dn cs).size = _
    rw [transform_size_eq dn c, transformList_size_eq dn cs]
    rfl
end

theorem bfWalkFuel_map_transform (dn : List Str) :
    (fuel : Nat) → (l : List Node) →
      bfWalkFuel fuel (l.map (transform_internal_links dn)) =
        (bfWalkFuel fuel l).map (transform_internal_links dn)
  | 0, _ => rfl
  | _ + 1, [] => rfl
  | fuel + 1, x :: q => by
    simp only [List.map_cons, bfWalkFuel, transform_children_eq, List.map_append]
    rw [← List.map_append, bfWalkFuel_map_transform dn fuel (q ++ x.children)]

theorem walk_transform (dn : List Str) (n : Node) :
    breadth_first_walk (transform_internal_links dn n) =
      (breadth_first_walk n).map (transform_internal_links dn) := by
  unfold breadth_first_walk
  rw [transform_size_eq dn n]
  exact bfWalkFuel_map_transform dn n.size [n]

theorem find_by_type_transform (dn : List Str) (t : Str) (n : Node) :
    find_by_type t (transform_internal_links dn n) =
      (find_by_type t n).map (transform_internal_links dn) := by
  unfold find_by_type
  rw [walk_transform, List.filter_map]
  refine congrArg _ (List.filter_congr ?_)
  intro m _
  simp [Function.comp, transform_type_eq]

mutual
theorem to_text_transform (dn : List Str) :
    (n : Node) → to_text (transform_internal_links dn n) = to_text n
  | .mk t k i (some v) u cs => rfl
  | .mk t k i none u cs => by
    show toTextList (transformLinksList dn cs) = toTextList cs
    exact toTextList_transform dn cs
theorem toTextList_transform (dn : List Str) :
    (l : NodeList) → toTextList (transformLinksList dn l) = toTextList l
  | .nil => rfl
  | .cons c cs => by
    show to_text (transform_internal_links dn c) ++ toTextList (transformLinksList dn cs) = _
    rw [to_text_transform dn c, toTextList_transform dn cs]
    rfl
end

/-- C6: the artifact `write_doc` emits has frontmatter title equal to the
flattened text of the first heading-type node of the AST and
`content_includes_title` true when a heading exists, and title null with
`content_includes_title` false when no heading-type node exists. -/
theorem claim6_frontmatter (e : BuildEnv) (doc : Str) (mdast : Node) :
    (∀ h, (find_by_type ("heading".data) mdast).head? = some h →
      objGet ("frontmatter".data) (xrefWriteDoc e doc mdast) =
        some (JSON.obj
          [(("title".data), JSON.str (to_text h)),
           (("content_includes_title".data), JSON.bool true)])) ∧
    ((find_by_type ("heading".data) mdast).head? = none →
      objGet ("frontmatter".data) (xrefWriteDoc e doc mdast) =
        some (JSON.obj
          [(("title".data), JSON.null),
           (("content_includes_title".data), JSON.bool false)])) := by
  have hhead :
      ((find_by_type ("heading".data)
          (transform_internal_links e.found_docs mdast)).head?).map to_text =
        ((find_by_type ("heading".data) mdast).head?).map to_text := by
    rw [find_by_type_transform, List.head?_map, Option.map_map]
    rcases (find_by_type ("heading".data) mdast).head? with _ | h
    · rfl
    · show some (to_text (transform_internal_links e.found_docs h)) = _
      rw [to_text_transform]
      rfl
  constructor
  · intro h hh
    simp only [xrefWriteDoc, hhead, hh]
    rfl
  · intro hh
    simp only [xrefWriteDoc, hhead, hh]
    rfl

/-- Witness for C6: a document whose first heading flattens to `Intro`
gets that title with the flag set; a document with no heading gets a
null title with the flag cleared. -/
theorem claim6_frontmatter_witness :
    objGet ("frontmatter".data) (xrefWriteDoc sampleEnv ("intro".data) introDoc) =
      some (JSON.obj
        [(("title".data), JSON.str ("Intro".data)),
         (("content_includes_title".data), JSON.bool true)]) ∧
    objGet ("frontmatter".data) (xrefWriteDoc sampleEnv ("guide".data) plainDoc) =
      some (JSON.obj
        [(("title".data), JSON.null),
         (("content_includes_title".data), JSON.bool false)]) :=
  ⟨(claim6_frontmatter sampleEnv ("intro".data) introDoc).1 introHeading rfl,
   (claim6_frontmatter sampleEnv ("guide".data) plainDoc).2 rfl⟩

/-! ## Lemmas about the splitting primitives -/

theorem splitFirst_snd_some {c : Char} {l b : Str}
    (h : (splitFirst c l).2 = some b) : l = (splitFirst c l).1 ++ c :: b := by
  induction l generalizing b with
  | nil => simp [splitFirst] at h
  | cons x xs ih =>
    by_cases hx : x = c
    · rw [splitFirst, if_pos hx] at h ⊢
      simp only at h ⊢
      cases h
      simp [hx]
    · rw [splitFirst, if_neg hx] at h ⊢
      simp only at h ⊢
      rw [List.cons_append]
      exact congrArg _ (ih h)

theorem splitFirst_snd_none {c : Char} {l : Str}
    (h : (splitFirst c l).2 = none) : (splitFirst c l).1 = l ∧ c ∉ l := by
  induction l with
  | nil => simp [splitFirst]
  | cons x xs ih =>
    by_cases hx : x = c
    · rw [splitFirst, if_pos hx] at h
      simp at h
    · rw [splitFirst, if_neg hx] at h ⊢
      simp only at h ⊢
      obtain ⟨h1, h2⟩ := ih h
      refine ⟨by rw [h1], ?_⟩
      intro hmem
      rcases List.mem_cons.mp hmem with he | hm
      · exact hx he.symm
      · exact h2 hm

theorem splitFirst_of_not_mem {c : Char} {l : Str} (h : c ∉ l) :
    splitFirst c l = (l, none) := by
  induction l with
  | nil => rfl
  | cons x xs ih =>
    have hx : ¬ x = c := fun he => h (he ▸ List.mem_cons_self x xs)
    have hxs : c ∉ xs := fun hm => h (List.mem_cons_of_mem x hm)
    simp [splitFirst, hx, ih hxs]

theorem splitFirst_append {c : Char} {a b : Str} (h : c ∉ a) :
    splitFirst c (a ++ c :: b) = (a, some b) := by
  induction a with
  | nil => simp [splitFirst]
  | cons x xs ih =>
    have hx : ¬ x = c := fun he => h (he ▸ List.mem_cons_self x xs)
    have hxs : c ∉ xs := fun hm => h (List.mem_cons_of_mem x hm)
    simp [splitFirst, hx, ih hxs]

theorem splitFirst_fst_not_mem (c : Char) (l : Str) : c ∉ (splitFirst c l).1 := by
  induction l with
  | nil => simp [splitFirst]
  | cons x xs ih =>
    by_cases hx : x = c
    · simp [splitFirst, hx]
    · rw [splitFirst, if_neg hx]
      simp only
      intro hmem
      rcases List.mem_cons.mp hmem with he | hm
      · exact hx he.symm
      · exact ih hm

theorem splitLast_append {c : Char} {a b : Str} (h : c ∉ b) :
    splitLast c (a ++ c :: b) = some (a, b) := by
  unfold splitLast
  have hrev : (a ++ c :: b).reverse = b.reverse ++ c :: a.reverse := by
    simp
  rw [hrev, splitFirst_append (by simpa using h)]
  simp

theorem splitLast_of_not_mem {c : Char} {l : Str} (h : c ∉ l) :
    splitLast c l = none := by
  unfold splitLast
  rw [splitFirst_of_not_mem (by simpa using h)]

theorem splitLast_eq_some {c : Char} {l a b : Str}
    (h : splitLast c l = some (a, b)) : l = a ++ c :: b ∧ c ∉ b := by
  unfold splitLast at h
  rcases hsp : splitFirst c l.reverse with ⟨a2, _ | b2⟩
  · rw [hsp] at h
    simp at h
  · rw [hsp] at h
    simp only [Option.some.injEq, Prod.mk.injEq] at h
    obtain ⟨h1, h2⟩ := h
    have hfst : (splitFirst c l.reverse).1 = a2 := by rw [hsp]
    have hsnd : (splitFirst c l.reverse).2 = some b2 := by rw [hsp]
    have hl := splitFirst_snd_some hsnd
    rw [hfst] at hl
    have hnm := splitFirst_fst_not_mem c l.reverse
    rw [hfst] at hnm
    constructor
    · have hrev := congrArg List.reverse hl
      simp only [List.reverse_reverse, List.reverse_append] at hrev
      rw [hrev, ← h1, ← h2]
      simp
    · rw [← h2]
      simpa using hnm

theorem splitLast_none_not_mem {c : Char} {l : Str}
    (h : splitLast c l = none) : c ∉ l := by
  unfold splitLast at h
  rcases hsp : splitFirst c l.reverse with ⟨a2, _ | b2⟩
  · have hsnd : (splitFirst c l.reverse).2 = none := by rw [hsp]
    have := (splitFirst_snd_none hsnd).2
    simpa using this
  · rw [hsp] at h
    simp at h

theorem takeUntilDelim_append {p : Char → Bool} {a b : Str}
    (ha : ∀ x ∈ a, p x = false)
    (hb : b = [] ∨ ∃ y ys, b = y :: ys ∧ p y = true) :
    takeUntilDelim p (a ++ b) = (a, b) := by
  induction a with
  | nil =>
    rcases hb with rfl | ⟨y, ys, rfl, hy⟩
    · rfl
    · simp [takeUntilDelim, hy]
  | cons x xs ih =>
    have hx : p x = false := ha x (List.mem_cons_self x xs)
    have hxs : ∀ z ∈ xs, p z = false := fun z hz => ha z (List.mem_cons_of_mem x hz)
    simp [takeUntilDelim, hx, ih hxs]

theorem takeUntilDelim_fst_false (p : Char → Bool) (l : Str) :
    ∀ x ∈ (takeUntilDelim p l).1, p x = false := by
  induction l with
  | nil => simp [takeUntilDelim]
  | cons x xs ih =>
    by_cases hx : p x = true
    · simp [takeUntilDelim, hx]
    · rw [takeUntilDelim, if_neg hx]
      simp only
      intro z hz
      rcases List.mem_cons.mp hz with he | hm
      · subst he
        exact Bool.eq_false_iff.mpr hx
      · exact ih z hm

theorem takeUntilDelim_eq_append (p : Char → Bool) (l : Str) :
    (takeUntilDelim p l).1 ++ (takeUntilDelim p l).2 = l := by
  induction l with
  | nil => rfl
  | cons x xs ih =>
    by_cases hx : p x = true
    · simp [takeUntilDelim, hx]
    · rw [takeUntilDelim, if_neg hx]
      simp only [List.cons_append]
      rw [ih]

theorem takeUntilDelim_snd_cases (p : Char → Bool) (l : Str) :
    (takeUntilDelim p l).2 = [] ∨
      ∃ y ys, (takeUntilDelim p l).2 = y :: ys ∧ p y = true := by
  induction l with
  | nil => simp [takeUntilDelim]
  | cons x xs ih =>
    by_cases hx : p x = true
    · exact Or.inr ⟨x, xs, by simp [takeUntilDelim, hx], hx⟩
    · rw [takeUntilDelim, if_neg hx]
      simpa using ih

/-! ## Scheme detection lemmas -/

theorem schemeSplit_of_noIntro {u : Str} (h : noSchemeIntro u) :
    schemeSplit u = ([], u) := by
  unfold schemeSplit
  rcases hsp : splitFirst ':' u with ⟨bef, _ | aft⟩
  · rfl
  · cases bef with
    | nil => rfl
    | cons b0 rest =>
      have hfst : (splitFirst ':' u).1 = b0 :: rest := by rw [hsp]
      have hsnd : (splitFirst ':' u).2 = some aft := by rw [hsp]
      have hl := splitFirst_snd_some hsnd
      rw [hfst] at hl
      have hnm := splitFirst_fst_not_mem ':' u
      rw [hfst] at hnm
      have hval := h (b0 :: rest) aft hl hnm
      have hvne : ¬ ((b0.isAlpha && (b0 :: rest).all schemeChar) = true) := by
        have hfalse : (b0.isAlpha && (b0 :: rest).all schemeChar) = false := hval
        intro hc
        rw [hfalse] at hc
        cases hc
      show (if (b0.isAlpha && (b0 :: rest).all schemeChar) = true
          then ((b0 :: rest).map Char.toLower, aft) else (([] : Str), u)) = ([], u)
      rw [if_neg hvne]

theorem schemeSplit_fst_nil_snd {u : Str} (h : (schemeSplit u).1 = []) :
    (schemeSplit u).2 = u := by
  unfold schemeSplit at h ⊢
  rcases hsp : splitFirst ':' u with ⟨bef, _ | aft⟩
  · rfl
  · rw [hsp] at h
    cases bef with
    | nil => rfl
    | cons b0 rest =>
      have h2 : (if (b0.isAlpha && (b0 :: rest).all schemeChar) = true
          then ((b0 :: rest).map Char.toLower, aft) else (([] : Str), u)).1 = [] := h
      by_cases hc : (b0.isAlpha && (b0 :: rest).all schemeChar) = true
      · rw [if_pos hc] at h2
        simp at h2
      · show (if (b0.isAlpha && (b0 :: rest).all schemeChar) = true
            then ((b0 :: rest).map Char.toLower, aft) else (([] : Str), u)).2 = u
        rw [if_neg hc]

theorem noIntro_of_schemeSplit_fst_nil {u : Str} (h : (schemeSplit u).1 = []) :
    noSchemeIntro u := by
  intro a b heq hnm
  by_contra hval
  have hval2 : validSchemeName a = true := by
    rcases hv : validSchemeName a
    · exact absurd hv hval
    · rfl
  have hsp : splitFirst ':' u = (a, some b) := by
    rw [heq]
    exact splitFirst_append hnm
  unfold schemeSplit at h
  rw [hsp] at h
  cases a with
  | nil => simp [validSchemeName] at hval2
  | cons c cs =>
    have hc : (c.isAlpha && (c :: cs).all schemeChar) = true := hval2
    have h2 : (if (c.isAlpha && (c :: cs).all schemeChar) = true
        then ((c :: cs).map Char.toLower, b) else (([] : Str), u)).1 = [] := h
    rw [if_pos hc] at h2
    simp at h2

theorem noSchemeIntro_of_append {l t : Str} (h : noSchemeIntro (l ++ t)) :
    noSchemeIntro l := by
  intro a b heq hnm
  exact h a (b ++ t) (by rw [heq]; simp) hnm

theorem noSchemeIntro_of_head_not_alpha {l : Str}
    (h : ∀ h0 : Char, l.head? = some h0 → h0.isAlpha = false) : noSchemeIntro l := by
  intro a b heq hnm
  cases a with
  | nil => rfl
  | cons c cs =>
    have hc : l.head? = some c := by rw [heq]; rfl
    unfold validSchemeName
    simp [h c hc]

/-! ## Fragment, query and path-parameter split lemmas -/

theorem fragSplit_eq (u : Str) :
    fragSplit u = ((splitFirst '#' u).1, ((splitFirst '#' u).2).getD []) := by
  unfold fragSplit
  rcases splitFirst '#' u with ⟨a, _ | b⟩
  · rfl
  · rfl

theorem querySplit_eq (u : Str) :
    querySplit u = ((splitFirst '?' u).1, ((splitFirst '?' u).2).getD []) := by
  unfold querySplit
  rcases splitFirst '?' u with ⟨a, _ | b⟩
  · rfl
  · rfl

theorem fragSplit_fst_not_mem (u : Str) : '#' ∉ (fragSplit u).1 := by
  rw [fragSplit_eq]
  exact splitFirst_fst_not_mem '#' u

theorem querySplit_fst_not_mem (u : Str) : '?' ∉ (querySplit u).1 := by
  rw [querySplit_eq]
  exact splitFirst_fst_not_mem '?' u

theorem fragSplit_cases (u : Str) :
    u = (fragSplit u).1 ++ '#' :: (fragSplit u).2 ∨
      ((fragSplit u).2 = [] ∧ (fragSplit u).1 = u ∧ '#' ∉ u) := by
  rw [fragSplit_eq]
  rcases hsp : (splitFirst '#' u).2 with _ | b
  · obtain ⟨h1, h2⟩ := splitFirst_snd_none hsp
    exact Or.inr ⟨rfl, h1, h2⟩
  · have := splitFirst_snd_some hsp
    exact Or.inl (by simpa using this)

theorem querySplit_cases (u : Str) :
    u = (querySplit u).1 ++ '?' :: (querySplit u).2 ∨
      ((querySplit u).2 = [] ∧ (querySplit u).1 = u ∧ '?' ∉ u) := by
  rw [querySplit_eq]
  rcases hsp : (splitFirst '?' u).2 with _ | b
  · obtain ⟨h1, h2⟩ := splitFirst_snd_none hsp
    exact Or.inr ⟨rfl, h1, h2⟩
  · have := splitFirst_snd_some hsp
    exact Or.inl (by simpa using this)

theorem fragSplit_recover {a b : Str} (ha : '#' ∉ a) :
    fragSplit (a ++ '#' :: b) = (a, b) := by
  rw [fragSplit_eq, splitFirst_append ha]
  rfl

theorem fragSplit_recover_none {a : Str} (ha : '#' ∉ a) : fragSplit a = (a, []) := by
  rw [fragSplit_eq, splitFirst_of_not_mem ha]
  rfl

theorem querySplit_recover {a b : Str} (ha : '?' ∉ a) :
    querySplit (a ++ '?' :: b) = (a, b) := by
  rw [querySplit_eq, splitFirst_append ha]
  rfl

theorem querySplit_recover_none {a : Str} (ha : '?' ∉ a) : querySplit a = (a, []) := by
  rw [querySplit_eq, splitFirst_of_not_mem ha]
  rfl

theorem splitParams_recover_params {path prm : Str} (hseg : lastSegHasNoSemi path)
    (hprm : '/' ∉ prm) : splitParams (path ++ ';' :: prm) = (path, prm) := by
  unfold lastSegHasNoSemi at hseg
  unfold splitParams
  rcases hsl : splitLast '/' path with _ | ⟨pre, seg⟩
  · rw [hsl] at hseg
    have hseg2 : ';' ∉ path := hseg
    have hns := splitLast_none_not_mem hsl
    have hnall : '/' ∉ path ++ ';' :: prm := by
      intro hmem
      rcases List.mem_append.mp hmem with hm | hm
      · exact hns hm
      · rcases List.mem_cons.mp hm with he | hm2
        · cases he
        · exact hprm hm2
    rw [splitLast_of_not_mem hnall, splitFirst_append hseg2]
  · rw [hsl] at hseg
    have hseg2 : ';' ∉ seg := hseg
    obtain ⟨hpa, hnseg⟩ := splitLast_eq_some hsl
    have hkey : path ++ ';' :: prm = pre ++ '/' :: (seg ++ ';' :: prm) := by
      rw [hpa]
      simp
    have hnall : '/' ∉ seg ++ ';' :: prm := by
      intro hmem
      rcases List.mem_append.mp hmem with hm | hm
      · exact hnseg hm
      · rcases List.mem_cons.mp hm with he | hm2
        · cases he
        · exact hprm hm2
    rw [hkey, splitLast_append hnall]
    show (match splitFirst ';' (seg ++ ';' :: prm) with
      | (s1, some s2) => (pre ++ '/' :: s1, s2)
      | (_, none) => (pre ++ '/' :: (seg ++ ';' :: prm), [])) = (path, prm)
    rw [splitFirst_append hseg2]
    show (pre ++ '/' :: seg, prm) = (path, prm)
    rw [hpa]

theorem splitParams_recover_noparams {path : Str} (hseg : lastSegHasNoSemi path) :
    splitParams path = (path, []) := by
  unfold lastSegHasNoSemi at hseg
  unfold splitParams
  rcases hsl : splitLast '/' path with _ | ⟨pre, seg⟩
  · rw [hsl] at hseg
    have hseg2 : ';' ∉ path := hseg
    rw [splitFirst_of_not_mem hseg2]
  · rw [hsl] at hseg
    have hseg2 : ';' ∉ seg := hseg
    show (match splitFirst ';' seg with
      | (s1, some s2) => (pre ++ '/' :: s1, s2)
      | (_, none) => (path, [])) = (path, [])
    rw [splitFirst_of_not_mem hseg2]

/-! ## Sanitization lemmas -/

theorem c0_of_removed {c : Char} (h : removedByte c = true) : c0OrSpace c = true := by
  unfold removedByte at h
  rcases (by simpa using h : (c = '\t' ∨ c = '\r') ∨ c = '\n') with (rfl | rfl) | rfl <;> decide

theorem mem_removeTabsCrLf {x : Char} {l : Str} (h : x ∈ removeTabsCrLf l) :
    removedByte x = false := by
  unfold removeTabsCrLf at h
  have := (List.mem_filter.mp h).2
  simpa using this

theorem removeTabsCrLf_of_all {l : Str} (h : ∀ x ∈ l, removedByte x = false) :
    removeTabsCrLf l = l := by
  unfold removeTabsCrLf
  refine List.filter_eq_self.mpr ?_
  intro a ha
  simp [h a ha]

theorem lstripC0_of_head {l : Str}
    (h : ∀ h0 : Char, l.head? = some h0 → c0OrSpace h0 = false) : lstripC0 l = l := by
  cases l with
  | nil => rfl
  | cons c cs =>
    unfold lstripC0
    rw [if_neg]
    intro hc
    have := h c rfl
    rw [this] at hc
    cases hc

theorem sanitized_head (l : Str) :
    ∀ h0 : Char, (removeTabsCrLf (lstripC0 l)).head? = some h0 → c0OrSpace h0 = false := by
  induction l with
  | nil => intro h0 h; simp [lstripC0, removeTabsCrLf] at h
  | cons c cs ih =>
    intro h0 h
    by_cases hc : c0OrSpace c = true
    · unfold lstripC0 at h
      rw [if_pos hc] at h
      exact ih h0 h
    · unfold lstripC0 at h
      rw [if_neg hc] at h
      have hrb : removedByte c = false := by
        rcases hrb : removedByte c
        · rfl
        · exact absurd (c0_of_removed hrb) hc
      unfold removeTabsCrLf at h
      rw [List.filter_cons_of_pos (by simp [hrb])] at h
      simp only [List.head?_cons, Option.some.injEq] at h
      subst h
      rcases hval : c0OrSpace c
      · rfl
      · exact absurd hval hc

/-! ## Netloc split lemmas -/

theorem netlocSplit_cases (v : Str) :
    netlocSplit v = ([], v) ∨
      (∃ rest, v = '/' :: '/' :: rest ∧
        netlocSplit v = takeUntilDelim netlocDelim rest) := by
  unfold netlocSplit
  split
  · next rest => exact Or.inr ⟨rest, rfl, rfl⟩
  · next => exact Or.inl rfl

theorem netlocSplit_of_not_slash2 {v : Str} (h : ∀ rest, v ≠ '/' :: '/' :: rest) :
    netlocSplit v = ([], v) := by
  rcases netlocSplit_cases v with hc | ⟨rest, hv, _⟩
  · exact hc
  · exact absurd hv (h rest)

/-! ## Case equations for the path-parameter split -/

theorem splitParams_eq_ss {l pre seg s1 s2 : Str}
    (hsl : splitLast '/' l = some (pre, seg))
    (hsf : splitFirst ';' seg = (s1, some s2)) :
    splitParams l = (pre ++ '/' :: s1, s2) := by
  unfold splitParams
  rw [hsl]
  show (match splitFirst ';' seg with
    | (s1, some s2) => (pre ++ '/' :: s1, s2)
    | (_, none) => (l, [])) = _
  rw [hsf]

theorem splitParams_eq_sn {l pre seg s1 : Str}
    (hsl : splitLast '/' l = some (pre, seg))
    (hsf : splitFirst ';' seg = (s1, none)) :
    splitParams l = (l, []) := by
  unfold splitParams
  rw [hsl]
  show (match splitFirst ';' seg with
    | (s1, some s2) => (pre ++ '/' :: s1, s2)
    | (_, none) => (l, [])) = _
  rw [hsf]

theorem splitParams_eq_ns {l s1 s2 : Str}
    (hsl : splitLast '/' l = none)
    (hsf : splitFirst ';' l = (s1, some s2)) :
    splitParams l = (s1, s2) := by
  unfold splitParams
  rw [hsl]
  show (match splitFirst ';' l with
    | (s1, some s2) => (s1, s2)
    | (_, none) => (l, [])) = _
  rw [hsf]

theorem splitParams_eq_nn {l s1 : Str}
    (hsl : splitLast '/' l = none)
    (hsf : splitFirst ';' l = (s1, none)) :
    splitParams l = (l, []) := by
  unfold splitParams
  rw [hsl]
  show (match splitFirst ';' l with
    | (s1, some s2) => (s1, s2)
    | (_, none) => (l, [])) = _
  rw [hsf]

theorem head?_append_left {a b : Str} (h : a ≠ []) : (a ++ b).head? = a.head? := by
  cases a with
  | nil => exact absurd rfl h
  | cons x xs => rfl

theorem splitParams_spec (l : Str) :
    (l = (splitParams l).1 ++ ';' :: (splitParams l).2 ∨
      ((splitParams l).1 = l ∧ (splitParams l).2 = [])) ∧
    lastSegHasNoSemi (splitParams l).1 ∧
    (∀ x ∈ (splitParams l).2, x ≠ '/') := by
  rcases hsl : splitLast '/' l with _ | ⟨pre, seg⟩
  · rcases hsf : splitFirst ';' l with ⟨s1, _ | s2⟩
    · rw [splitParams_eq_nn hsl hsf]
      have hsnd : (splitFirst ';' l).2 = none := by rw [hsf]
      obtain ⟨-, hns⟩ := splitFirst_snd_none hsnd
      refine ⟨Or.inr ⟨rfl, rfl⟩, ?_, by simp⟩
      unfold lastSegHasNoSemi
      rw [hsl]
      exact hns
    · have hsnd : (splitFirst ';' l).2 = some s2 := by rw [hsf]
      have hfst : (splitFirst ';' l).1 = s1 := by rw [hsf]
      have hrec := splitFirst_snd_some hsnd
      rw [hfst] at hrec
      have hnm := splitFirst_fst_not_mem ';' l
      rw [hfst] at hnm
      have hnsl := splitLast_none_not_mem hsl
      rw [splitParams_eq_ns hsl hsf]
      refine ⟨Or.inl hrec, ?_, ?_⟩
      · have h1 : '/' ∉ s1 := fun hm => hnsl (by rw [hrec]; exact List.mem_append.mpr (Or.inl hm))
        unfold lastSegHasNoSemi
        rw [splitLast_of_not_mem h1]
        exact hnm
      · intro x hx hxe
        subst hxe
        exact hnsl (by rw [hrec]; exact List.mem_append.mpr (Or.inr (List.mem_cons_of_mem _ hx)))
  · obtain ⟨hlrec, hnseg⟩ := splitLast_eq_some hsl
    rcases hsf : splitFirst ';' seg with ⟨s1, _ | s2⟩
    · rw [splitParams_eq_sn hsl hsf]
      have hsnd : (splitFirst ';' seg).2 = none := by rw [hsf]
      obtain ⟨-, hns⟩ := splitFirst_snd_none hsnd
      refine ⟨Or.inr ⟨rfl, rfl⟩, ?_, by simp⟩
      unfold lastSegHasNoSemi
      rw [hsl]
      exact hns
    · have hsnd : (splitFirst ';' seg).2 = some s2 := by rw [hsf]
      have hfst : (splitFirst ';' seg).1 = s1 := by rw [hsf]
      have hrec := splitFirst_snd_some hsnd
      rw [hfst] at hrec
      have hnm := splitFirst_fst_not_mem ';' seg
      rw [hfst] at hnm
      rw [splitParams_eq_ss hsl hsf]
      have hs1nosl : '/' ∉ s1 := fun hm => hnseg (by rw [hrec]; exact List.mem_append.mpr (Or.inl hm))
      refine ⟨Or.inl ?_, ?_, ?_⟩
      · rw [hlrec, hrec]
        simp
      · unfold lastSegHasNoSemi
        rw [splitLast_append hs1nosl]
        exact hnm
      · intro x hx hxe
        subst hxe
        exact hnseg (by rw [hrec]; exact List.mem_append.mpr (Or.inr (List.mem_cons_of_mem _ hx)))

theorem mem_of_head?_eq {a : Char} {l : Str} (h : l.head? = some a) : a ∈ l := by
  cases l with
  | nil => cases h
  | cons x xs =>
    have hxa : x = a := by simpa using h
    rw [← hxa]
    exact List.mem_cons_self x xs

theorem parse_tail_inv (v : Str)
    (hvmem : ∀ x ∈ v, removedByte x = false)
    (hvhead : ∀ h0 : Char, v.head? = some h0 → c0OrSpace h0 = false)
    (hvnoIntro : noSchemeIntro v) :
    ParseInv
      ⟨[], (netlocSplit v).1,
        (splitParams (querySplit (fragSplit (netlocSplit v).2).1).1).1,
        (splitParams (querySplit (fragSplit (netlocSplit v).2).1).1).2,
        (querySplit (fragSplit (netlocSplit v).2).1).2,
        (fragSplit (netlocSplit v).2).2⟩ := by
  obtain ⟨hppRec, hppSemi, hppSl⟩ :=
    splitParams_spec (querySplit (fragSplit (netlocSplit v).2).1).1
  have hfragC := fragSplit_cases (netlocSplit v).2
  have hqueryC := querySplit_cases (fragSplit (netlocSplit v).2).1
  have hfNoHash := fragSplit_fst_not_mem (netlocSplit v).2
  have hqNoQm := querySplit_fst_not_mem (fragSplit (netlocSplit v).2).1
  have hq1f : ∀ x ∈ (querySplit (fragSplit (netlocSplit v).2).1).1,
      x ∈ (fragSplit (netlocSplit v).2).1 := by
    rcases hqueryC with he | ⟨-, he, -⟩
    · intro x hx
      rw [he]
      exact List.mem_append.mpr (Or.inl hx)
    · intro x hx
      rw [he] at hx
      exact hx
  have hq2f : ∀ x ∈ (querySplit (fragSplit (netlocSplit v).2).1).2,
      x ∈ (fragSplit (netlocSplit v).2).1 := by
    rcases hqueryC with he | ⟨he, -, -⟩
    · intro x hx
      rw [he]
      exact List.mem_append.mpr (Or.inr (List.mem_cons_of_mem _ hx))
    · intro x hx
      rw [he] at hx
      cases hx
  have hf1w : ∀ x ∈ (fragSplit (netlocSplit v).2).1, x ∈ (netlocSplit v).2 := by
    rcases hfragC with he | ⟨-, he, -⟩
    · intro x hx
      rw [he]
      exact List.mem_append.mpr (Or.inl hx)
    · intro x hx
      rw [he] at hx
      exact hx
  have hf2w : ∀ x ∈ (fragSplit (netlocSplit v).2).2, x ∈ (netlocSplit v).2 := by
    rcases hfragC with he | ⟨he, -, -⟩
    · intro x hx
      rw [he]
      exact List.mem_append.mpr (Or.inr (List.mem_cons_of_mem _ hx))
    · intro x hx
      rw [he] at hx
      cases hx
  have hp1q : ∀ x ∈ (splitParams (querySplit (fragSplit (netlocSplit v).2).1).1).1,
      x ∈ (querySplit (fragSplit (netlocSplit v).2).1).1 := by
    rcases hppRec with he | ⟨he, -⟩
    · intro x hx
      rw [he]
      exact List.mem_append.mpr (Or.inl hx)
    · intro x hx
      rw [he] at hx
      exact hx
  have hp2q : ∀ x ∈ (splitParams (querySplit (fragSplit (netlocSplit v).2).1).1).2,
      x ∈ (querySplit (fragSplit (netlocSplit v).2).1).1 := by
    rcases hppRec with he | ⟨-, he⟩
    · intro x hx
      rw [he]
      exact List.mem_append.mpr (Or.inr (List.mem_cons_of_mem _ hx))
    · intro x hx
      rw [he] at hx
      cases hx
  have hwv : ∀ x ∈ (netlocSplit v).2, x ∈ v := by
    rcases netlocSplit_cases v with he | ⟨rest, hv, he⟩
    · intro x hx
      rw [he] at hx
      exact hx
    · intro x hx
      rw [he] at hx
      rw [hv]
      refine List.mem_cons_of_mem _ (List.mem_cons_of_mem _ ?_)
      rw [← takeUntilDelim_eq_append netlocDelim rest]
      exact List.mem_append.mpr (Or.inr hx)
  have hnv : ∀ x ∈ (netlocSplit v).1, x ∈ v := by
    rcases netlocSplit_cases v with he | ⟨rest, hv, he⟩
    · intro x hx
      rw [he] at hx
      cases hx
    · intro x hx
      rw [he] at hx
      rw [hv]
      refine List.mem_cons_of_mem _ (List.mem_cons_of_mem _ ?_)
      rw [← takeUntilDelim_eq_append netlocDelim rest]
      exact List.mem_append.mpr (Or.inl hx)
  have hheads : ∀ h0 : Char,
      (splitParams (querySplit (fragSplit (netlocSplit v).2).1).1).1.head? = some h0 →
        (netlocSplit v).2.head? = some h0 := by
    intro h0 hh
    have hpne : (splitParams (querySplit (fragSplit (netlocSplit v).2).1).1).1 ≠ [] := by
      intro he
      rw [he] at hh
      cases hh
    have hq1h : (querySplit (fragSplit (netlocSplit v).2).1).1.head? = some h0 := by
      rcases hppRec with he | ⟨he, -⟩
      · rw [he, head?_append_left hpne]
        exact hh
      · rw [← he]
        exact hh
    have hq1ne : (querySplit (fragSplit (netlocSplit v).2).1).1 ≠ [] := by
      intro he
      rw [he] at hq1h
      cases hq1h
    have hf1h : (fragSplit (netlocSplit v).2).1.head? = some h0 := by
      rcases hqueryC with he | ⟨-, he, -⟩
      · rw [he, head?_append_left hq1ne]
        exact hq1h
      · rw [← he]
        exact hq1h
    have hf1ne : (fragSplit (netlocSplit v).2).1 ≠ [] := by
      intro he
      rw [he] at hf1h
      cases hf1h
    rcases hfragC with he | ⟨-, he, -⟩
    · rw [he, head?_append_left hf1ne]
      exact hf1h
    · rw [← he]
      exact hf1h
  have hslash : ∀ h0 : Char,
      (splitParams (querySplit (fragSplit (netlocSplit v).2).1).1).1.head? = some h0 →
      (∃ rest, v = '/' :: '/' :: rest ∧
        netlocSplit v = takeUntilDelim netlocDelim rest) → h0 = '/' := by
    intro h0 hh hB
    obtain ⟨rest, hv, he⟩ := hB
    have hw := hheads h0 hh
    have hmemq : h0 ∈ (querySplit (fragSplit (netlocSplit v).2).1).1 :=
      hp1q h0 (mem_of_head?_eq hh)
    have hmemf : h0 ∈ (fragSplit (netlocSplit v).2).1 := hq1f h0 hmemq
    have hw2 : (netlocSplit v).2 = (takeUntilDelim netlocDelim rest).2 := by rw [he]
    rcases takeUntilDelim_snd_cases netlocDelim rest with hnil | ⟨y, ys, hyy, hdel⟩
    · rw [hw2, hnil] at hw
      cases hw
    · rw [hw2, hyy] at hw
      have hyh : y = h0 := by simpa using hw
      rw [hyh] at hdel
      have hd3 : (h0 = '/' ∨ h0 = '?') ∨ h0 = '#' := by
        simpa [netlocDelim, or_assoc] using hdel
      rcases hd3 with (he1 | he1) | he1
      · exact he1
      · rw [he1] at hmemq
        exact absurd hmemq hqNoQm
      · rw [he1] at hmemf
        exact absurd hmemf hfNoHash
  refine ⟨?_, ?_, ?_, ?_, ?_, ?_, ?_, ?_, ?_⟩
  · -- netloc_clean
    rcases netlocSplit_cases v with he | ⟨rest, hv, he⟩
    · rw [he]
      intro x hx
      cases hx
    · rw [he]
      exact takeUntilDelim_fst_false netlocDelim rest
  · -- path_clean
    exact ⟨fun hmem => hqNoQm (hp1q _ hmem), fun hmem => hfNoHash (hq1f _ (hp1q _ hmem))⟩
  · -- params_clean
    refine ⟨fun hmem => hppSl _ hmem rfl, fun hmem => hqNoQm (hp2q _ hmem),
      fun hmem => hfNoHash (hq1f _ (hp2q _ hmem))⟩
  · -- query_clean
    exact fun hmem => hfNoHash (hq2f _ hmem)
  · -- path_semi
    exact hppSemi
  · -- path_slash
    intro hn1 hpne
    rcases hp : (splitParams (querySplit (fragSplit (netlocSplit v).2).1).1).1.head? with _ | h0
    · rw [List.head?_eq_none_iff] at hp
      exact absurd hp hpne
    · rcases netlocSplit_cases v with he | hB
      · rw [he] at hn1
        exact absurd rfl hn1
      · rw [← hslash h0 hp hB]
  · -- path_scheme
    rcases netlocSplit_cases v with he | hB
    · -- no netloc consumed: the path starts the sanitized input
      have hwv2 : (netlocSplit v).2 = v := by rw [he]
      have hq1pre : ∃ t, (querySplit (fragSplit (netlocSplit v).2).1).1 =
          (splitParams (querySplit (fragSplit (netlocSplit v).2).1).1).1 ++ t := by
        rcases hppRec with he2 | ⟨he2, -⟩
        · exact ⟨_, he2⟩
        · exact ⟨[], by rw [he2, List.append_nil]⟩
      have hf1pre : ∃ t, (fragSplit (netlocSplit v).2).1 =
          (querySplit (fragSplit (netlocSplit v).2).1).1 ++ t := by
        rcases hqueryC with he2 | ⟨-, he2, -⟩
        · exact ⟨_, he2⟩
        · exact ⟨[], by rw [he2, List.append_nil]⟩
      have hwpre : ∃ t, (netlocSplit v).2 =
          (fragSplit (netlocSplit v).2).1 ++ t := by
        rcases hfragC with he2 | ⟨-, he2, -⟩
        · exact ⟨_, he2⟩
        · exact ⟨[], by rw [he2, List.append_nil]⟩
      obtain ⟨t1, ht1⟩ := hq1pre
      obtain ⟨t2, ht2⟩ := hf1pre
      obtain ⟨t3, ht3⟩ := hwpre
      have e1 : v = (fragSplit (netlocSplit v).2).1 ++ t3 := hwv2.symm.trans ht3
      have e2 : v = ((querySplit (fragSplit (netlocSplit v).2).1).1 ++ t2) ++ t3 :=
        e1.trans (congrArg (fun z => z ++ t3) ht2)
      have e3 : v = (((splitParams (querySplit (fragSplit (netlocSplit v).2).1).1).1
          ++ t1) ++ t2) ++ t3 :=
        e2.trans (congrArg (fun z => (z ++ t2) ++ t3) ht1)
      have hvp : v = (splitParams (querySplit (fragSplit (netlocSplit v).2).1).1).1 ++
          (t1 ++ t2 ++ t3) := e3.trans (by simp)
      exact @noSchemeIntro_of_append _ (t1 ++ t2 ++ t3) (by rw [← hvp]; exact hvnoIntro)
    · refine noSchemeIntro_of_head_not_alpha ?_
      intro h0 hh
      rw [hslash h0 hh hB]
      decide
  · -- no_removed
    intro x hx
    refine hvmem x ?_
    rcases hx with h | h | h | h | h
    · exact hnv x h
    · exact hwv x (hf1w x (hq1f x (hp1q x h)))
    · exact hwv x (hf1w x (hq1f x (hp2q x h)))
    · exact hwv x (hf1w x (hq2f x h))
    · exact hwv x (hf2w x h)
  · -- head_ok
    intro hn1 h0 hh
    rcases netlocSplit_cases v with he | hB
    · have hwv2 : (netlocSplit v).2 = v := by rw [he]
      have hw := hheads h0 hh
      rw [hwv2] at hw
      exact hvhead h0 hw
    · rw [hslash h0 hh hB]
      decide

/-! ## Lemmas about the rewrite suffix and scheme-free concatenations -/

theorem jsonSuffix_no_special :
    '/' ∉ jsonSuffix ∧ ';' ∉ jsonSuffix ∧ '?' ∉ jsonSuffix ∧ '#' ∉ jsonSuffix ∧
      ':' ∉ jsonSuffix ∧ ∀ x ∈ jsonSuffix, removedByte x = false := by decide

theorem lastSegHasNoSemi_append_sfx {path : Str} (h : lastSegHasNoSemi path) :
    lastSegHasNoSemi (path ++ jsonSuffix) := by
  unfold lastSegHasNoSemi at h ⊢
  rcases hsl : splitLast '/' path with _ | ⟨pre, seg⟩
  · rw [hsl] at h
    have h2 : ';' ∉ path := h
    have hns := splitLast_none_not_mem hsl
    have hall : '/' ∉ path ++ jsonSuffix := by
      intro hm
      rcases List.mem_append.mp hm with hm2 | hm2
      · exact hns hm2
      · exact jsonSuffix_no_special.1 hm2
    rw [splitLast_of_not_mem hall]
    intro hm
    rcases List.mem_append.mp hm with hm2 | hm2
    · exact h2 hm2
    · exact jsonSuffix_no_special.2.1 hm2
  · rw [hsl] at h
    have h2 : ';' ∉ seg := h
    obtain ⟨hrec, hnseg⟩ := splitLast_eq_some hsl
    have hkey : path ++ jsonSuffix = pre ++ '/' :: (seg ++ jsonSuffix) := by
      rw [hrec]
      simp
    have hall : '/' ∉ seg ++ jsonSuffix := by
      intro hm
      rcases List.mem_append.mp hm with hm2 | hm2
      · exact hnseg hm2
      · exact jsonSuffix_no_special.1 hm2
    rw [hkey, splitLast_append hall]
    intro hm
    rcases List.mem_append.mp hm with hm2 | hm2
    · exact h2 hm2
    · exact jsonSuffix_no_special.2.1 hm2

theorem validSchemeName_false_of_mem {a : Str} {x : Char} (hx : x ∈ a)
    (hbad : schemeChar x = false) : validSchemeName a = false := by
  cases a with
  | nil => rfl
  | cons c cs =>
    unfold validSchemeName
    by_cases hall : (c :: cs).all schemeChar = true
    · have := List.all_eq_true.mp hall x hx
      rw [hbad] at this
      cases this
    · simp only [Bool.not_eq_true] at hall
      simp [hall]

theorem colon_decomp {c : Char} :
    ∀ (pfx : Str) {rest2 a b : Str}, pfx ++ rest2 = a ++ c :: b → c ∉ a →
      (∃ b2, pfx = a ++ c :: b2) ∨ (∃ t, a = pfx ++ t ∧ rest2 = t ++ c :: b)
  | [], rest2, a, b, heq, ha => by
    right
    exact ⟨a, by simp, by simpa using heq⟩
  | x :: pfx2, rest2, a, b, heq, ha => by
    cases a with
    | nil =>
      left
      simp only [List.nil_append] at heq
      have hx : x = c := by
        have := congrArg List.head? heq
        simpa using this
      exact ⟨pfx2, by rw [hx]; rfl⟩
    | cons a0 a2 =>
      have hx : x = a0 := by
        have := congrArg List.head? heq
        simpa using this
      have ht : pfx2 ++ rest2 = a2 ++ c :: b := by
        have := congrArg List.tail heq
        simpa using this
      have ha2 : c ∉ a2 := fun hm => ha (List.mem_cons_of_mem _ hm)
      rcases colon_decomp pfx2 ht ha2 with ⟨b2, hb2⟩ | ⟨t, hta, htr⟩
      · left
        exact ⟨b2, by rw [hx, hb2]; rfl⟩
      · right
        exact ⟨t, by rw [hx, hta]; rfl, htr⟩

theorem noSchemeIntro_suffixed_rest {path rest : Str} (hp : noSchemeIntro path)
    (hrest : ∀ y ys, rest = y :: ys → y ≠ ':' ∧ schemeChar y = false) :
    noSchemeIntro ((path ++ jsonSuffix) ++ rest) := by
  intro a b heq hnm
  rcases colon_decomp (path ++ jsonSuffix) heq hnm with ⟨b2, hb2⟩ | ⟨t, hta, htr⟩
  · -- the colon lies inside path ++ jsonSuffix
    rcases colon_decomp path hb2 hnm with ⟨b3, hb3⟩ | ⟨t, -, htr⟩
    · exact hp a b3 hb3 hnm
    · exfalso
      refine jsonSuffix_no_special.2.2.2.2.1 ?_
      rw [htr]
      exact List.mem_append.mpr (Or.inr (List.mem_cons_self ':' b2))
  · -- the colon lies inside the trailing components
    cases t with
    | nil =>
      simp only [List.nil_append] at htr
      exact absurd rfl (hrest ':' b htr).1
    | cons t0 t2 =>
      have ht0 : schemeChar t0 = false := (hrest t0 (t2 ++ ':' :: b) (by simpa using htr)).2
      refine validSchemeName_false_of_mem ?_ ht0
      rw [hta]
      exact List.mem_append.mpr (Or.inr (List.mem_cons_self t0 t2))

theorem urlparse_repr (u0 : Str) :
    urlparse u0 =
      ⟨(schemeSplit (removeTabsCrLf (lstripC0 u0))).1,
       (netlocSplit ((schemeSplit (removeTabsCrLf (lstripC0 u0))).2)).1,
       (splitParams (querySplit (fragSplit
         (netlocSplit ((schemeSplit (removeTabsCrLf (lstripC0 u0))).2)).2).1).1).1,
       (splitParams (querySplit (fragSplit
         (netlocSplit ((schemeSplit (removeTabsCrLf (lstripC0 u0))).2)).2).1).1).2,
       (querySplit (fragSplit
         (netlocSplit ((schemeSplit (removeTabsCrLf (lstripC0 u0))).2)).2).1).2,
       (fragSplit
         (netlocSplit ((schemeSplit (removeTabsCrLf (lstripC0 u0))).2)).2).2⟩ := rfl

theorem urlparse_inv (u0 : Str) (hs : (urlparse u0).scheme = []) :
    ParseInv (urlparse u0) := by
  have hsp1 : (schemeSplit (removeTabsCrLf (lstripC0 u0))).1 = [] := hs
  have hu2 := schemeSplit_fst_nil_snd hsp1
  have hinv := parse_tail_inv (removeTabsCrLf (lstripC0 u0))
    (fun x hx => mem_removeTabsCrLf hx) (sanitized_head u0)
    (noIntro_of_schemeSplit_fst_nil hsp1)
  rw [urlparse_repr u0, hsp1, hu2]
  exact hinv

theorem urlunsplit_no_scheme_no_netloc (u qr fr : Str) :
    urlunsplit [] [] u qr fr =
      (u ++ (if qr ≠ [] then '?' :: qr else [])) ++
        (if fr ≠ [] then '#' :: fr else []) := by
  unfold urlunsplit
  by_cases hq : qr = [] <;> by_cases hf : fr = [] <;> simp [hq, hf]

theorem urlunsplit_no_scheme_netloc {n u : Str} (qr fr : Str) (hn : n ≠ [])
    (hu : u.head? = some '/') :
    urlunsplit [] n u qr fr =
      (['/', '/'] ++ n) ++ ((u ++ (if qr ≠ [] then '?' :: qr else [])) ++
        (if fr ≠ [] then '#' :: fr else [])) := by
  have hcond : ¬ (u ≠ [] ∧ u.head? ≠ some '/') := by
    rintro ⟨-, hne⟩
    exact hne hu
  unfold urlunsplit
  rw [if_pos (Or.inl hn), if_neg hcond]
  by_cases hq : qr = [] <;> by_cases hf : fr = [] <;> simp [hq, hf]

theorem if_params_append (l prm : Str) (c : Char) :
    (if prm ≠ [] then l ++ c :: prm else l) = l ++ (if prm ≠ [] then c :: prm else []) := by
  by_cases hp : prm = [] <;> simp [hp]

theorem urlunparse_suffixed_eq (p : ParsedUri) (hs : p.scheme = [])
    (hhead : p.netloc ≠ [] → p.path.head? = some '/') (hpne : p.path ≠ []) :
    urlunparse { p with path := p.path ++ jsonSuffix } =
      (if p.netloc = [] then ([] : Str) else ['/', '/'] ++ p.netloc) ++
      ((((p.path ++ jsonSuffix) ++ (if p.params ≠ [] then ';' :: p.params else []))
        ++ (if p.query ≠ [] then '?' :: p.query else []))
        ++ (if p.fragment ≠ [] then '#' :: p.fragment else [])) := by
  have hp2ne : p.path ++ jsonSuffix ≠ [] := by
    intro h
    exact hpne (List.append_eq_nil.mp h).1
  have hshow : urlunparse { p with path := p.path ++ jsonSuffix } =
      urlunsplit p.scheme p.netloc
        (if p.params ≠ [] then (p.path ++ jsonSuffix) ++ ';' :: p.params
         else p.path ++ jsonSuffix) p.query p.fragment := rfl
  rw [hshow, hs, if_params_append]
  by_cases hn : p.netloc = []
  · rw [hn, urlunsplit_no_scheme_no_netloc]
    simp
  · have hph : (p.path ++ jsonSuffix).head? = some '/' := by
      rw [head?_append_left hpne]
      exact hhead hn
    have hu : ((p.path ++ jsonSuffix) ++
        (if p.params ≠ [] then ';' :: p.params else [])).head? = some '/' := by
      rw [head?_append_left hp2ne]
      exact hph
    rw [urlunsplit_no_scheme_netloc p.query p.fragment hn hu, if_neg hn]

theorem append_left_ne_nil {a : Str} (b : Str) (h : a ≠ []) : a ++ b ≠ [] := by
  intro hc
  exact h (List.append_eq_nil.mp hc).1

theorem reparse_suffixed (p : ParsedUri) (hinv : ParseInv p) (hs : p.scheme = [])
    (hpne : p.path ≠ []) (hnn : p.netloc = [] → p.path.take 2 ≠ ['/', '/']) :
    urlparse (urlunparse { p with path := p.path ++ jsonSuffix }) =
      { p with path := p.path ++ jsonSuffix } := by
  obtain ⟨hnetC, hpathC, hparC, hqryC, hsemi, hslashI, hintro, hrm, hheadok⟩ := hinv
  have hsfx := jsonSuffix_no_special
  have hp2ne : p.path ++ jsonSuffix ≠ [] := append_left_ne_nil _ hpne
  rw [urlunparse_suffixed_eq p hs (fun hn => hslashI hn hpne) hpne]
  -- the serialized tail, common to both netloc cases
  have hQm : '?' ∉ (p.path ++ jsonSuffix) ++ (if p.params ≠ [] then ';' :: p.params else []) := by
    intro hm
    rcases List.mem_append.mp hm with hm2 | hm2
    · rcases List.mem_append.mp hm2 with hm3 | hm3
      · exact hpathC.1 hm3
      · exact hsfx.2.2.1 hm3
    · by_cases hpp : p.params = []
      · simp [hpp] at hm2
      · simp only [hpp, ne_eq, not_false_iff, if_true] at hm2
        rcases List.mem_cons.mp hm2 with he | hm3
        · cases he
        · exact hparC.2.1 hm3
  have hHm : '#' ∉ ((p.path ++ jsonSuffix) ++ (if p.params ≠ [] then ';' :: p.params else []))
      ++ (if p.query ≠ [] then '?' :: p.query else []) := by
    intro hm
    rcases List.mem_append.mp hm with hm2 | hm2
    · rcases List.mem_append.mp hm2 with hm3 | hm3
      · rcases List.mem_append.mp hm3 with hm4 | hm4
        · exact hpathC.2 hm4
        · exact hsfx.2.2.2.1 hm4
      · by_cases hpp : p.params = []
        · simp [hpp] at hm3
        · simp only [hpp, ne_eq, not_false_iff, if_true] at hm3
          rcases List.mem_cons.mp hm3 with he | hm4
          · cases he
          · exact hparC.2.2 hm4
    · by_cases hq : p.query = []
      · simp [hq] at hm2
      · simp only [hq, ne_eq, not_false_iff, if_true] at hm2
        rcases List.mem_cons.mp hm2 with he | hm3
        · cases he
        · exact hqryC hm3
  have hsplitP : splitParams ((p.path ++ jsonSuffix) ++
      (if p.params ≠ [] then ';' :: p.params else [])) = (p.path ++ jsonSuffix, p.params) := by
    have hseg2 := lastSegHasNoSemi_append_sfx hsemi
    by_cases hpp : p.params = []
    · rw [hpp]
      simp only [ne_eq, not_true_eq_false, if_false, List.append_nil]
      exact splitParams_recover_noparams hseg2
    · simp only [hpp, ne_eq, not_false_iff, if_true]
      exact splitParams_recover_params hseg2 hparC.1
  have hsplitQ : querySplit (((p.path ++ jsonSuffix) ++
      (if p.params ≠ [] then ';' :: p.params else [])) ++
      (if p.query ≠ [] then '?' :: p.query else [])) =
      ((p.path ++ jsonSuffix) ++ (if p.params ≠ [] then ';' :: p.params else []), p.query) := by
    by_cases hq : p.query = []
    · rw [hq]
      simp only [ne_eq, not_true_eq_false, if_false, List.append_nil]
      exact querySplit_recover_none hQm
    · simp only [hq, ne_eq, not_false_iff, if_true]
      exact querySplit_recover hQm
  have hsplitF : fragSplit ((((p.path ++ jsonSuffix) ++
      (if p.params ≠ [] then ';' :: p.params else [])) ++
      (if p.query ≠ [] then '?' :: p.query else [])) ++
      (if p.fragment ≠ [] then '#' :: p.fragment else [])) =
      (((p.path ++ jsonSuffix) ++ (if p.params ≠ [] then ';' :: p.params else [])) ++
        (if p.query ≠ [] then '?' :: p.query else []), p.fragment) := by
    by_cases hf : p.fragment = []
    · rw [hf]
      simp only [ne_eq, not_true_eq_false, if_false, List.append_nil]
      exact fragSplit_recover_none hHm
    · simp only [hf, ne_eq, not_false_iff, if_true]
      exact fragSplit_recover hHm
  have hmemCore : ∀ x ∈ (((p.path ++ jsonSuffix) ++
      (if p.params ≠ [] then ';' :: p.params else [])) ++
      (if p.query ≠ [] then '?' :: p.query else [])) ++
      (if p.fragment ≠ [] then '#' :: p.fragment else []), removedByte x = false := by
    intro x hx
    rcases List.mem_append.mp hx with hm | hm
    · rcases List.mem_append.mp hm with hm2 | hm2
      · rcases List.mem_append.mp hm2 with hm3 | hm3
        · rcases List.mem_append.mp hm3 with hm4 | hm4
          · exact hrm x (Or.inr (Or.inl hm4))
          · exact hsfx.2.2.2.2.2 x hm4
        · by_cases hpp : p.params = []
          · simp [hpp] at hm3
          · simp only [hpp, ne_eq, not_false_iff, if_true] at hm3
            rcases List.mem_cons.mp hm3 with he | hm4
            · rw [he]
              decide
            · exact hrm x (Or.inr (Or.inr (Or.inl hm4)))
      · by_cases hq : p.query = []
        · simp [hq] at hm2
        · simp only [hq, ne_eq, not_false_iff, if_true] at hm2
          rcases List.mem_cons.mp hm2 with he | hm3
          · rw [he]
            decide
          · exact hrm x (Or.inr (Or.inr (Or.inr (Or.inl hm3))))
    · by_cases hf : p.fragment = []
      · simp [hf] at hm
      · simp only [hf, ne_eq, not_false_iff, if_true] at hm
        rcases List.mem_cons.mp hm with he | hm2
        · rw [he]
          decide
        · exact hrm x (Or.inr (Or.inr (Or.inr (Or.inr hm2))))
  have hrest : ∀ y ys, ((if p.params ≠ [] then ';' :: p.params else ([] : Str)) ++
      ((if p.query ≠ [] then '?' :: p.query else []) ++
       (if p.fragment ≠ [] then '#' :: p.fragment else []))) = y :: ys →
      y ≠ ':' ∧ schemeChar y = false := by
    intro y ys hE
    have hhead := congrArg List.head? hE
    by_cases hpp : p.params = [] <;> by_cases hq : p.query = [] <;>
        by_cases hf : p.fragment = [] <;>
      simp only [hpp, hq, hf, ne_eq, not_true_eq_false, not_false_iff, if_true, if_false,
        List.nil_append, List.append_nil, List.head?_cons, List.head?_nil] at hhead
    case pos => cases hhead
    all_goals {
      have hy := Option.some.inj hhead
      rw [← hy]
      exact ⟨by decide, by decide⟩
    }
  by_cases hn : p.netloc = []
  · rw [if_pos hn, List.nil_append]
    have hCne : (((p.path ++ jsonSuffix) ++
        (if p.params ≠ [] then ';' :: p.params else [])) ++
        (if p.query ≠ [] then '?' :: p.query else [])) ++
        (if p.fragment ≠ [] then '#' :: p.fragment else []) ≠ [] :=
      append_left_ne_nil _ (append_left_ne_nil _ (append_left_ne_nil _ hp2ne))
    have hheadC : ((((p.path ++ jsonSuffix) ++
        (if p.params ≠ [] then ';' :: p.params else [])) ++
        (if p.query ≠ [] then '?' :: p.query else [])) ++
        (if p.fragment ≠ [] then '#' :: p.fragment else [])).head? = p.path.head? := by
      rw [head?_append_left (append_left_ne_nil _ (append_left_ne_nil _ hp2ne)),
        head?_append_left (append_left_ne_nil _ hp2ne), head?_append_left hp2ne,
        head?_append_left hpne]
    have hsan : removeTabsCrLf (lstripC0 ((((p.path ++ jsonSuffix) ++
        (if p.params ≠ [] then ';' :: p.params else [])) ++
        (if p.query ≠ [] then '?' :: p.query else [])) ++
        (if p.fragment ≠ [] then '#' :: p.fragment else []))) =
        (((p.path ++ jsonSuffix) ++
        (if p.params ≠ [] then ';' :: p.params else [])) ++
        (if p.query ≠ [] then '?' :: p.query else [])) ++
        (if p.fragment ≠ [] then '#' :: p.fragment else []) := by
      rw [lstripC0_of_head, removeTabsCrLf_of_all hmemCore]
      intro h0 hh
      rw [hheadC] at hh
      exact hheadok hn h0 hh
    have hintroC : noSchemeIntro ((((p.path ++ jsonSuffix) ++
        (if p.params ≠ [] then ';' :: p.params else [])) ++
        (if p.query ≠ [] then '?' :: p.query else [])) ++
        (if p.fragment ≠ [] then '#' :: p.fragment else [])) := by
      have hassoc : (((((p.path ++ jsonSuffix) ++
          (if p.params ≠ [] then ';' :: p.params else [])) ++
          (if p.query ≠ [] then '?' :: p.query else [])) ++
          (if p.fragment ≠ [] then '#' :: p.fragment else [])) : Str) =
          (p.path ++ jsonSuffix) ++ ((if p.params ≠ [] then ';' :: p.params else []) ++
            ((if p.query ≠ [] then '?' :: p.query else []) ++
             (if p.fragment ≠ [] then '#' :: p.fragment else []))) := by
        simp
      rw [hassoc]
      exact noSchemeIntro_suffixed_rest hintro hrest
    have hschemeC := schemeSplit_of_noIntro hintroC
    have hno2 : ∀ rest, ((((p.path ++ jsonSuffix) ++
        (if p.params ≠ [] then ';' :: p.params else [])) ++
        (if p.query ≠ [] then '?' :: p.query else [])) ++
        (if p.fragment ≠ [] then '#' :: p.fragment else [])) ≠ '/' :: '/' :: rest := by
      intro rest hcontra
      have hassoc2 : (((((p.path ++ jsonSuffix) ++
          (if p.params ≠ [] then ';' :: p.params else [])) ++
          (if p.query ≠ [] then '?' :: p.query else [])) ++
          (if p.fragment ≠ [] then '#' :: p.fragment else [])) : Str) =
          p.path ++ (jsonSuffix ++ ((if p.params ≠ [] then ';' :: p.params else []) ++
            ((if p.query ≠ [] then '?' :: p.query else []) ++
             (if p.fragment ≠ [] then '#' :: p.fragment else [])))) := by
        simp
      rw [hassoc2] at hcontra
      rcases hp3 : p.path with _ | ⟨c1, t1⟩
      · exact hpne hp3
      · rcases t1 with _ | ⟨c2, t2⟩
        · rw [hp3] at hcontra
          simp only [List.cons_append, List.nil_append] at hcontra
          injection hcontra with h1 h2
          have h3 := congrArg List.head? h2
          rw [head?_append_left (by decide : jsonSuffix ≠ [])] at h3
          simp only [List.head?_cons] at h3
          exact absurd h3 (by decide)
        · rw [hp3] at hcontra
          simp only [List.cons_append] at hcontra
          injection hcontra with h1 h2
          injection h2 with h2 h3
          refine hnn hn ?_
          rw [hp3, h1, h2]
          rfl
    have hnetC2 := netlocSplit_of_not_slash2 hno2
    rw [urlparse_repr, hsan]
    simp only [hschemeC, hnetC2, hsplitF, hsplitQ, hsplitP]
    simp [ParsedUri.mk.injEq, hs, hn]
  · rw [if_neg hn]
    have hassocS : ((['/', '/'] ++ p.netloc) ++
        ((((p.path ++ jsonSuffix) ++ (if p.params ≠ [] then ';' :: p.params else [])) ++
          (if p.query ≠ [] then '?' :: p.query else [])) ++
          (if p.fragment ≠ [] then '#' :: p.fragment else [])) : Str) =
        '/' :: '/' :: (p.netloc ++
          ((((p.path ++ jsonSuffix) ++ (if p.params ≠ [] then ';' :: p.params else [])) ++
            (if p.query ≠ [] then '?' :: p.query else [])) ++
            (if p.fragment ≠ [] then '#' :: p.fragment else []))) := by
      simp
    rw [hassocS]
    have hheadC : ((((p.path ++ jsonSuffix) ++
        (if p.params ≠ [] then ';' :: p.params else [])) ++
        (if p.query ≠ [] then '?' :: p.query else [])) ++
        (if p.fragment ≠ [] then '#' :: p.fragment else [])).head? = some '/' := by
      rw [head?_append_left (append_left_ne_nil _ (append_left_ne_nil _ hp2ne)),
        head?_append_left (append_left_ne_nil _ hp2ne), head?_append_left hp2ne,
        head?_append_left hpne]
      exact hslashI hn hpne
    obtain ⟨ys, hys⟩ : ∃ ys, ((((p.path ++ jsonSuffix) ++
        (if p.params ≠ [] then ';' :: p.params else [])) ++
        (if p.query ≠ [] then '?' :: p.query else [])) ++
        (if p.fragment ≠ [] then '#' :: p.fragment else [])) = '/' :: ys := by
      rcases hCC : ((((p.path ++ jsonSuffix) ++
          (if p.params ≠ [] then ';' :: p.params else [])) ++
          (if p.query ≠ [] then '?' :: p.query else [])) ++
          (if p.fragment ≠ [] then '#' :: p.fragment else [])) with _ | ⟨c, cs⟩
      · rw [hCC] at hheadC
        cases hheadC
      · rw [hCC] at hheadC
        have hc : c = '/' := by simpa using hheadC
        exact ⟨cs, by rw [hc]⟩
    have hsanS : removeTabsCrLf (lstripC0 ('/' :: '/' :: (p.netloc ++
        ((((p.path ++ jsonSuffix) ++ (if p.params ≠ [] then ';' :: p.params else [])) ++
          (if p.query ≠ [] then '?' :: p.query else [])) ++
          (if p.fragment ≠ [] then '#' :: p.fragment else []))))) =
        '/' :: '/' :: (p.netloc ++
        ((((p.path ++ jsonSuffix) ++ (if p.params ≠ [] then ';' :: p.params else [])) ++
          (if p.query ≠ [] then '?' :: p.query else [])) ++
          (if p.fragment ≠ [] then '#' :: p.fragment else []))) := by
      rw [lstripC0_of_head, removeTabsCrLf_of_all]
      · intro x hx
        rcases List.mem_cons.mp hx with he | hx2
        · rw [he]
          decide
        · rcases List.mem_cons.mp hx2 with he | hx3
          · rw [he]
            decide
          · rcases List.mem_append.mp hx3 with hm | hm
            · exact hrm x (Or.inl hm)
            · exact hmemCore x hm
      · intro h0 hh
        have h0e : '/' = h0 := by simpa using hh
        rw [← h0e]
        decide
    have hintroS : noSchemeIntro ('/' :: '/' :: (p.netloc ++
        ((((p.path ++ jsonSuffix) ++ (if p.params ≠ [] then ';' :: p.params else [])) ++
          (if p.query ≠ [] then '?' :: p.query else [])) ++
          (if p.fragment ≠ [] then '#' :: p.fragment else [])))) := by
      refine noSchemeIntro_of_head_not_alpha ?_
      intro h0 hh
      have h0e : '/' = h0 := by simpa using hh
      rw [← h0e]
      decide
    have hschemeS := schemeSplit_of_noIntro hintroS
    have hnetS : netlocSplit ('/' :: '/' :: (p.netloc ++
        ((((p.path ++ jsonSuffix) ++ (if p.params ≠ [] then ';' :: p.params else [])) ++
          (if p.query ≠ [] then '?' :: p.query else [])) ++
          (if p.fragment ≠ [] then '#' :: p.fragment else [])))) =
        (p.netloc,
          (((p.path ++ jsonSuffix) ++ (if p.params ≠ [] then ';' :: p.params else [])) ++
            (if p.query ≠ [] then '?' :: p.query else [])) ++
            (if p.fragment ≠ [] then '#' :: p.fragment else [])) := by
      show takeUntilDelim netlocDelim _ = _
      refine takeUntilDelim_append (fun x hx => hnetC x hx) ?_
      exact Or.inr ⟨'/', ys, hys, by decide⟩
    rw [urlparse_repr, hsanS]
    simp only [hschemeS, hnetS, hsplitF, hsplitQ, hsplitP]
    simp [ParsedUri.mk.injEq, hs]

/-! ## The link rewrite at the URL level -/

theorem transformUrl_eq_self {docnames : List Str} {u : Str}
    (h : (urlparse u).scheme ≠ [] ∨ (urlparse u).path = [] ∨
      (urlparse u).path ∉ docnames) :
    transformUrl docnames u = u := by
  unfold transformUrl
  rcases h with h | h | h
  · rw [if_pos (Or.inl h)]
  · rw [if_pos (Or.inr h)]
  · by_cases h2 : (urlparse u).scheme ≠ [] ∨ (urlparse u).path = []
    · rw [if_pos h2]
    · rw [if_neg h2, if_pos h]

theorem transformUrl_eq_rewrite {docnames : List Str} {u : Str}
    (h1 : (urlparse u).scheme = []) (h2 : (urlparse u).path ≠ [])
    (h3 : (urlparse u).path ∈ docnames) :
    transformUrl docnames u =
      urlunparse { urlparse u with path := (urlparse u).path ++ jsonSuffix } := by
  unfold transformUrl
  rw [if_neg (fun hc => hc.elim (fun hne => hne h1) h2), if_neg (fun hc => hc h3)]

theorem transformUrl_idem (docnames : List Str)
    (h1 : ∀ d ∈ docnames, d ++ jsonSuffix ∉ docnames)
    (h2 : ∀ d ∈ docnames, d.take 2 ≠ ['/', '/']) (u : Str) :
    transformUrl docnames (transformUrl docnames u) = transformUrl docnames u := by
  by_cases hA : (urlparse u).scheme ≠ [] ∨ (urlparse u).path = [] ∨
      (urlparse u).path ∉ docnames
  · rw [transformUrl_eq_self hA]
    exact transformUrl_eq_self hA
  · push_neg at hA
    obtain ⟨hA1, hA2, hA3⟩ := hA
    rw [transformUrl_eq_rewrite hA1 hA2 hA3]
    have hinv := urlparse_inv u hA1
    have hrep := reparse_suffixed (urlparse u) hinv hA1 hA2 (fun _ => h2 _ hA3)
    refine transformUrl_eq_self (Or.inr (Or.inr ?_))
    rw [hrep]
    exact h1 _ hA3

mutual
theorem transformLinks_idem (docnames : List Str)
    (h1 : ∀ d ∈ docnames, d ++ jsonSuffix ∉ docnames)
    (h2 : ∀ d ∈ docnames, d.take 2 ≠ ['/', '/']) :
    (t : Node) →
      transform_internal_links docnames (transform_internal_links docnames t) =
        transform_internal_links docnames t
  | .mk ty k i v u cs => by
    show Node.mk ty k i v
        (if ty == ("link".data) then
          transformUrl docnames (if ty == ("link".data) then transformUrl docnames u else u)
         else (if ty == ("link".data) then transformUrl docnames u else u))
        (transformLinksList docnames (transformLinksList docnames cs)) =
      Node.mk ty k i v (if ty == ("link".data) then transformUrl docnames u else u)
        (transformLinksList docnames cs)
    rw [transformLinksList_idem docnames h1 h2 cs]
    by_cases hty : (ty == ("link".data)) = true
    · rw [if_pos hty, if_pos hty, transformUrl_idem docnames h1 h2 u]
    · rw [if_neg hty, if_neg hty]
theorem transformLinksList_idem (docnames : List Str)
    (h1 : ∀ d ∈ docnames, d ++ jsonSuffix ∉ docnames)
    (h2 : ∀ d ∈ docnames, d.take 2 ≠ ['/', '/']) :
    (l : NodeList) →
      transformLinksList docnames (transformLinksList docnames l) =
        transformLinksList docnames l
  | .nil => rfl
  | .cons c cs => by
    show NodeList.cons _ _ = NodeList.cons _ _
    rw [transformLinks_idem docnames h1 h2 c, transformLinksList_idem docnames h1 h2 cs]
end

/-- C4: a link URL whose parse has a scheme, an empty path, or a path
that is not a known document id is returned completely unchanged by the
internal-link rewrite; a rewritten URL is re-serialized from the original
parse with only the path component altered (the `.myst.json` suffix
appended) while the scheme, netloc, params, query and fragment components
are passed through verbatim. -/
theorem claim4_link_rewrite (docnames : List Str) (u : Str) :
    ((urlparse u).scheme ≠ [] ∨ (urlparse u).path = [] ∨
        (urlparse u).path ∉ docnames →
      transformUrl docnames u = u) ∧
    ((urlparse u).scheme = [] → (urlparse u).path ≠ [] →
        (urlparse u).path ∈ docnames →
      transformUrl docnames u =
        urlunparse
          ⟨(urlparse u).scheme, (urlparse u).netloc,
            (urlparse u).path ++ jsonSuffix, (urlparse u).params,
            (urlparse u).query, (urlparse u).fragment⟩) := by
  constructor
  · exact transformUrl_eq_self
  · intro h1 h2 h3
    have hrec : { urlparse u with path := (urlparse u).path ++ jsonSuffix } =
        (⟨(urlparse u).scheme, (urlparse u).netloc, (urlparse u).path ++ jsonSuffix,
          (urlparse u).params, (urlparse u).query, (urlparse u).fragment⟩ : ParsedUri) := rfl
    rw [transformUrl_eq_rewrite h1 h2 h3, hrec, h1]

/-- Witness for C4: an absolute URL is untouched; a known-document URL
with query and fragment is rewritten with only the path suffixed. -/
theorem claim4_link_rewrite_witness :
    transformUrl [("guide".data)] ("http://x".data) = ("http://x".data) ∧
      transformUrl [("guide".data)] ("guide?q#f".data) =
        urlunparse ⟨[], [], ("guide".data) ++ jsonSuffix, [], ("q".data), ("f".data)⟩ :=
  ⟨(claim4_link_rewrite [("guide".data)] ("http://x".data)).1 (Or.inl (by decide)),
   ((claim4_link_rewrite [("guide".data)] ("guide?q#f".data)).2
      (by decide) (by decide) (by decide)).trans (by decide)⟩

/-- C7 (counterexample): double application of the internal-link rewrite
is not always the identity on already-rewritten trees — with the known
documents `a` and `a.myst.json`, the link `a` is rewritten to
`a.myst.json` and then a second application rewrites it again. -/
theorem claim7_counterexample :
    transform_internal_links clashingDocnames
        (transform_internal_links clashingDocnames linkDoc) ≠
      transform_internal_links clashingDocnames linkDoc := by
  decide

/-- C7 (amended): the internal-link rewrite is idempotent on whole trees
provided no known document id extended with the `.myst.json` suffix is
itself a known document id and no known document id starts with two
slashes. -/
theorem claim7_idempotent (docnames : List Str)
    (h1 : ∀ d ∈ docnames, d ++ jsonSuffix ∉ docnames)
    (h2 : ∀ d ∈ docnames, d.take 2 ≠ ['/', '/']) (t : Node) :
    transform_internal_links docnames (transform_internal_links docnames t) =
      transform_internal_links docnames t :=
  transformLinks_idem docnames h1 h2 t

/-- Witness for C7 at a concrete document set and tree. -/
theorem claim7_idempotent_witness :
    transform_internal_links [("a".data)]
        (transform_internal_links [("a".data)] linkDoc) =
      transform_internal_links [("a".data)] linkDoc :=
  claim7_idempotent [("a".data)] (by decide) (by decide) linkDoc
